import Mathlib

/-!
# Verification of the LANA board-storage subsystem

Shallow embedding of `src/src-tauri/src/lib.rs` (board identifier validation,
the SSRF safety gate, board id generation, the board index and its
filesystem reconciliation, and the create/delete/restore/save/load
operations), together with proofs settling the frozen claims about it.

Rust strings are modelled as Lean `String`s; `str::len` (a UTF-8 byte count
in Rust) is modelled by summing `Char.utf8Size` over the characters.
Machine integers (`i64` timestamps) are modelled as `Int`; `u32`/`usize`
as `Nat`.
-/

namespace LANA

/-- Rust's `str::len`: the length of the UTF-8 encoding in bytes. -/
def byteLen (s : String) : Nat := (s.data.map Char.utf8Size).sum

/-- Rust's `char::is_ascii_alphanumeric`. -/
def is_ascii_alphanumeric (c : Char) : Bool :=
  ('A' ≤ c && c ≤ 'Z') || ('a' ≤ c && c ≤ 'z') || ('0' ≤ c && c ≤ '9')

/-- The character class accepted by the validator's final check:
`c.is_ascii_alphanumeric() || c == '-' || c == '_'`. -/
def isIdChar (c : Char) : Bool := is_ascii_alphanumeric c || c == '-' || c == '_'

/-- Rust's `str::contains("..")`: some position starts with two dots. -/
def hasDotDot : List Char → Bool
  | c :: d :: rest => (c == '.' && d == '.') || hasDotDot (d :: rest)
  | _ => false

/-- `is_valid_board_id` from `lib.rs` lines 239–249: rejects the empty
string, byte length over 64, path separators, the substring `..`, and any
character outside `[A-Za-z0-9_-]`. -/
def is_valid_board_id (s : String) : Bool :=
  if s.data.isEmpty || byteLen s > 64 then false
  else if s.data.contains '/' || s.data.contains '\\' || hasDotDot s.data then false
  else s.data.all isIdChar

theorem utf8Size_eq_one_of_isIdChar {c : Char} (h : isIdChar c = true) :
    c.utf8Size = 1 := by
  have hle : c.val ≤ UInt32.ofNatCore 0x7F (by decide) := by
    simp only [isIdChar, is_ascii_alphanumeric, Bool.or_eq_true, Bool.and_eq_true,
      decide_eq_true_eq, beq_iff_eq] at h
    rcases h with ((((⟨_, h2⟩ | ⟨_, h2⟩) | ⟨_, h2⟩) | rfl) | rfl)
    · exact UInt32.le_trans h2 (by decide)
    · exact UInt32.le_trans h2 (by decide)
    · exact UInt32.le_trans h2 (by decide)
    · decide
    · decide
  unfold Char.utf8Size
  rw [if_pos hle]

theorem sumSize_eq_length {l : List Char}
    (h : ∀ c ∈ l, isIdChar c = true) : (l.map Char.utf8Size).sum = l.length := by
  induction l with
  | nil => rfl
  | cons c cs ih =>
    have hc := utf8Size_eq_one_of_isIdChar (h c (by simp))
    have ih' := ih (fun x hx => h x (List.mem_cons_of_mem c hx))
    simp [hc, ih', Nat.add_comm]

theorem mem_of_hasDotDot : ∀ l : List Char, hasDotDot l = true → '.' ∈ l
  | [], h => by simp [hasDotDot] at h
  | [c], h => by simp [hasDotDot] at h
  | c :: d :: rest, h => by
    simp only [hasDotDot, Bool.or_eq_true, Bool.and_eq_true, beq_iff_eq] at h
    rcases h with ⟨rfl, _⟩ | h
    · exact List.mem_cons_self _ _
    · exact List.mem_cons_of_mem _ (mem_of_hasDotDot (d :: rest) (by simpa [hasDotDot] using h))

/-- **C5.** The identifier validator accepts exactly the non-empty strings
of at most 64 characters drawn from `[A-Za-z0-9_-]` — i.e. exactly the
strings matching `[A-Za-z0-9_-]{1,64}`.  (The `..` rejection is subsumed:
`.` is outside the character class.  The Rust length check counts UTF-8
bytes, but on strings drawn from this ASCII class bytes and characters
coincide.) -/
theorem C5_identifier_validator (s : String) :
    is_valid_board_id s = true ↔
      (1 ≤ s.data.length ∧ s.data.length ≤ 64 ∧ ∀ c ∈ s.data, isIdChar c = true) := by
  unfold is_valid_board_id
  constructor
  · intro h
    split at h
    · exact absurd h (by simp)
    · split at h
      · exact absurd h (by simp)
      · rename_i h1 h2
        simp only [Bool.or_eq_true, not_or] at h1
        have hall : ∀ c ∈ s.data, isIdChar c = true := by
          simpa [List.all_eq_true] using h
        have hlen : byteLen s = s.data.length := sumSize_eq_length hall
        refine ⟨?_, ?_, hall⟩
        · rcases h1 with ⟨hne, _⟩
          have : s.data ≠ [] := fun hnil => hne (by simp [hnil])
          have := List.length_pos.mpr this
          omega
        · rcases h1 with ⟨_, hle⟩
          have : ¬ byteLen s > 64 := fun hgt => hle (by simpa using hgt)
          omega
  · rintro ⟨h1, h2, hall⟩
    have hlen : byteLen s = s.data.length := sumSize_eq_length hall
    have hne : s.data.isEmpty = false := by
      cases hd : s.data with
      | nil => rw [hd] at h1; simp at h1
      | cons a l => simp
    have hslash : '/' ∉ s.data := fun hm => by
      have := hall _ hm
      simp [isIdChar, is_ascii_alphanumeric] at this
    have hback : '\\' ∉ s.data := fun hm => by
      have := hall _ hm
      simp [isIdChar, is_ascii_alphanumeric] at this
    have hdot : hasDotDot s.data = false := by
      cases hd : hasDotDot s.data with
      | false => rfl
      | true =>
        have := hall _ (mem_of_hasDotDot _ hd)
        simp [isIdChar, is_ascii_alphanumeric] at this
    have hA : ¬ ((s.data.isEmpty || decide (byteLen s > 64)) = true) := by
      simp only [hne, Bool.false_or, decide_eq_true_eq, gt_iff_lt, not_lt, hlen]
      omega
    have hB : ¬ ((s.data.contains '/' || s.data.contains '\\' || hasDotDot s.data) = true) := by
      simp [hslash, hback, hdot]
    rw [if_neg hA, if_neg hB]
    simpa [List.all_eq_true] using hall

/-! ## The SSRF safety gate (`is_safe_url`, lines 349–371)

`url::Url` is modelled by `UrlM`, carrying the pieces the code reads:
the scheme, `host_str()` (note: per the `url` crate's documentation,
for an IPv6 host `host_str` returns the bracketed literal, e.g. `"[::1]"`,
because it is a slice of the URL's serialization), and the full
serialization (`Url::to_string`/`as_str`).

`host.parse::<IpAddr>()` is modelled by `parse_ip`: Rust's `std::net`
textual address grammar — dotted-quad IPv4 with decimal octets `0..=255`
and no leading zeros, and RFC-4291 IPv6 with optional `::` compression,
1–4 hex digits per group and an optional embedded IPv4 tail.  Brackets
are *not* part of that grammar (they belong to `SocketAddr` parsing), so
`"[::1]".parse::<IpAddr>()` fails. -/

/-- Split a character list on a separator character (used to model the
octet/group structure of Rust's IP address parsing). -/
def splitOnChar (sep : Char) : List Char → List (List Char)
  | [] => [[]]
  | c :: rest =>
    let r := splitOnChar sep rest
    if c == sep then [] :: r
    else
      match r with
      | [] => [[c]]
      | g :: gs => (c :: g) :: gs

def decDigitVal (c : Char) : Option Nat :=
  if '0' ≤ c ∧ c ≤ '9' then some (c.toNat - '0'.toNat) else none

def hexDigitVal (c : Char) : Option Nat :=
  if '0' ≤ c ∧ c ≤ '9' then some (c.toNat - '0'.toNat)
  else if 'a' ≤ c ∧ c ≤ 'f' then some (c.toNat - 'a'.toNat + 10)
  else if 'A' ≤ c ∧ c ≤ 'F' then some (c.toNat - 'A'.toNat + 10)
  else none

def parseDecDigits : List Char → Nat → Option Nat
  | [], acc => some acc
  | c :: rest, acc =>
    match decDigitVal c with
    | some v => parseDecDigits rest (acc * 10 + v)
    | none => none

def parseHexDigits : List Char → Nat → Option Nat
  | [], acc => some acc
  | c :: rest, acc =>
    match hexDigitVal c with
    | some v => parseHexDigits rest (acc * 16 + v)
    | none => none

/-- One IPv4 octet: decimal, `0..=255`, no leading zeros. -/
def parseOctet (g : List Char) : Option Nat :=
  match g with
  | [] => none
  | ['0'] => some 0
  | '0' :: _ => none
  | _ =>
    match parseDecDigits g 0 with
    | some v => if v ≤ 255 then some v else none
    | none => none

def parse_ipv4 (l : List Char) : Option (Nat × Nat × Nat × Nat) :=
  match splitOnChar '.' l with
  | [a, b, c, d] =>
    match parseOctet a, parseOctet b, parseOctet c, parseOctet d with
    | some x, some y, some z, some w => some (x, y, z, w)
    | _, _, _, _ => none
  | _ => none

/-- One IPv6 group: 1–4 hex digits. -/
def parseHexGroup (g : List Char) : Option Nat :=
  if 1 ≤ g.length ∧ g.length ≤ 4 then parseHexDigits g 0 else none

/-- Locate the first `::`, returning the characters before and after it. -/
def findDoubleColon : List Char → Option (List Char × List Char)
  | ':' :: ':' :: rest => some ([], rest)
  | c :: rest => (findDoubleColon rest).map (fun p => (c :: p.1, p.2))
  | [] => none

/-- Parse a `:`-separated group list whose final group may be an embedded
IPv4 address (contributing two 16-bit groups). -/
def parseTailGroups : List (List Char) → Option (List Nat)
  | [] => some []
  | [g] =>
    if g.contains '.' then
      (parse_ipv4 g).map (fun q => [q.1 * 256 + q.2.1, q.2.2.1 * 256 + q.2.2.2])
    else (parseHexGroup g).map ([·])
  | g :: g' :: rest =>
    match parseHexGroup g, parseTailGroups (g' :: rest) with
    | some n, some ns => some (n :: ns)
    | _, _ => none

def parse_ipv6 (l : List Char) : Option (List Nat) :=
  match findDoubleColon l with
  | some (left, right) =>
    if (findDoubleColon right).isSome then none
    else
      let lgs := if left.isEmpty then [] else splitOnChar ':' left
      let rgs := if right.isEmpty then [] else splitOnChar ':' right
      match lgs.mapM parseHexGroup, parseTailGroups rgs with
      | some ln, some rn =>
        if ln.length + rn.length < 8 then
          some (ln ++ List.replicate (8 - ln.length - rn.length) 0 ++ rn)
        else none
      | _, _ => none
  | none =>
    match parseTailGroups (splitOnChar ':' l) with
    | some ns => if ns.length = 8 then some ns else none
    | none => none

/-- Rust's `std::net::IpAddr`. -/
inductive IpAddr
  | v4 (a b c d : Nat)
  | v6 (segs : List Nat)
deriving DecidableEq

/-- `host.parse::<IpAddr>()`: IPv4 is tried first, then IPv6 (matching
`std`'s `FromStr for IpAddr`). -/
def parse_ip (s : String) : Option IpAddr :=
  match parse_ipv4 s.data with
  | some (a, b, c, d) => some (.v4 a b c d)
  | none => (parse_ipv6 s.data).map .v6

/-- `Ipv4Addr::is_private`: 10/8, 172.16/12, 192.168/16. -/
def v4_is_private (a b : Nat) : Bool :=
  a == 10 || (a == 172 && (16 ≤ b && b ≤ 31)) || (a == 192 && b == 168)

/-- `Ipv4Addr::is_loopback`: 127/8. -/
def v4_is_loopback (a : Nat) : Bool := a == 127

/-- `Ipv4Addr::is_link_local`: 169.254/16. -/
def v4_is_link_local (a b : Nat) : Bool := a == 169 && b == 254

/-- `Ipv4Addr::is_unspecified`: 0.0.0.0. -/
def v4_is_unspecified (a b c d : Nat) : Bool :=
  a == 0 && b == 0 && c == 0 && d == 0

/-- `Ipv6Addr::is_loopback`: `::1`. -/
def v6_is_loopback (g : List Nat) : Bool := g == [0, 0, 0, 0, 0, 0, 0, 1]

/-- `Ipv6Addr::is_unicast_link_local`: `fe80::/10`. -/
def v6_is_unicast_link_local (g : List Nat) : Bool :=
  (g.headD 0) &&& 0xffc0 == 0xfe80

/-- `Ipv6Addr::is_unique_local`: `fc00::/7`. -/
def v6_is_unique_local (g : List Nat) : Bool :=
  (g.headD 0) &&& 0xfe00 == 0xfc00

/-- `Ipv6Addr::is_unspecified`: `::`. -/
def v6_is_unspecified (g : List Nat) : Bool := g == [0, 0, 0, 0, 0, 0, 0, 0]

/-- Rust's `char::to_ascii_lowercase`. -/
def to_ascii_lowercase (c : Char) : Char :=
  if 'A' ≤ c ∧ c ≤ 'Z' then Char.ofNat (c.toNat + 32) else c

/-- Rust's `str::eq_ignore_ascii_case`. -/
def eqIgnoreAsciiCase (a b : String) : Bool :=
  a.data.map to_ascii_lowercase == b.data.map to_ascii_lowercase

/-- The model of `url::Url`: the fields the verified code inspects. -/
structure UrlM where
  scheme : String
  host : Option String
  serialization : String
deriving DecidableEq

/-- `is_safe_url` from `lib.rs` lines 349–371. -/
def is_safe_url (u : UrlM) : Bool :=
  match u.host with
  | none => false
  | some host =>
    if eqIgnoreAsciiCase host "localhost" || List.isSuffixOf ".local".data host.data then
      false
    else
      match parse_ip host with
      | some (.v4 a b c d) =>
        !(v4_is_private a b || v4_is_loopback a || v4_is_link_local a b
          || v4_is_unspecified a b c d)
      | some (.v6 g) =>
        !(v6_is_loopback g || v6_is_unicast_link_local g || v6_is_unique_local g
          || v6_is_unspecified g)
      | none => true

/-- `Url::parse("http://127.0.0.1/")`: host_str is `127.0.0.1`. -/
def url_loopback_v4 : UrlM := ⟨"http", some "127.0.0.1", "http://127.0.0.1/"⟩

/-- `Url::parse("http://localhost/")`. -/
def url_localhost : UrlM := ⟨"http", some "localhost", "http://localhost/"⟩

/-- `Url::parse("http://10.0.0.5/")`. -/
def url_private_v4 : UrlM := ⟨"http", some "10.0.0.5", "http://10.0.0.5/"⟩

/-- `Url::parse("http://[::1]/")`: per the `url` crate, `host_str()` for an
IPv6 host is the bracketed literal `"[::1]"` (a slice of the
serialization). -/
def url_loopback_v6 : UrlM := ⟨"http", some "[::1]", "http://[::1]/"⟩

/-- `Url::parse("https://example.com/")`. -/
def url_example : UrlM := ⟨"https", some "example.com", "https://example.com/"⟩

/-- **C8.** Evaluation of the safety gate on the five URLs named by the
claim.  Four behave as claimed, but `http://[::1]/` is *accepted*: the
`url` crate's `host_str()` yields the bracketed literal `"[::1]"`, which
`"...".parse::<IpAddr>()` rejects (brackets are not part of the `IpAddr`
grammar), so the host falls through to the `Ok` branch for non-IP
hostnames and the explicit `v6.is_loopback()` rejection is unreachable —
a bug: the code plainly intends to block IPv6 loopback. -/
theorem C8_is_safe_url_eval :
    is_safe_url url_loopback_v4 = false ∧
    is_safe_url url_localhost = false ∧
    is_safe_url url_private_v4 = false ∧
    is_safe_url url_example = true ∧
    is_safe_url url_loopback_v6 = true := by
  decide

/-! ## Decimal rendering

`format!("board-{now}")` and `format!("{base}-{i}")` render numbers in
decimal.  To reason about collisions we need that the rendering of the
loop counter is injective; we prove this for `Nat.repr` (which is what
`toString` on `Nat` unfolds to) via a reference printer `myDigits` and a
decimal evaluator. -/

/-- Reference decimal printer (most significant digit first). -/
def myDigits (n : Nat) : List Char :=
  if _h : n < 10 then [Nat.digitChar n]
  else myDigits (n / 10) ++ [Nat.digitChar (n % 10)]
decreasing_by
  exact Nat.div_lt_self (by omega) (by omega)

theorem toDigitsCore_eq_myDigits :
    ∀ (fuel n : Nat) (ds : List Char), n < fuel →
      Nat.toDigitsCore 10 fuel n ds = myDigits n ++ ds := by
  intro fuel
  induction fuel with
  | zero => intro n ds h; omega
  | succ f ih =>
    intro n ds h
    rw [Nat.toDigitsCore]
    by_cases h0 : n / 10 = 0
    · have hn : n < 10 := by omega
      rw [myDigits]
      simp [h0, hn, Nat.mod_eq_of_lt hn]
    · have h10 : 10 ≤ n := by
        by_contra hc
        exact h0 (Nat.div_eq_of_lt (by omega))
      have hf : n / 10 < f := by
        have := Nat.div_lt_self (show 0 < n by omega) (show 1 < 10 by omega)
        omega
      rw [if_neg h0, ih (n / 10) (Nat.digitChar (n % 10) :: ds) hf]
      conv_rhs => rw [myDigits]
      simp [show ¬ n < 10 by omega, List.append_assoc]

theorem repr_eq_myDigits (n : Nat) : Nat.repr n = (myDigits n).asString := by
  show (Nat.toDigits 10 n).asString = _
  rw [show Nat.toDigits 10 n = Nat.toDigitsCore 10 (n + 1) n [] from rfl]
  rw [toDigitsCore_eq_myDigits (n + 1) n [] (by omega)]
  simp

/-- Decimal evaluator: left fold reading most significant digit first. -/
def decListVal (l : List Char) : Nat :=
  l.foldl (fun a c => a * 10 + (c.toNat - '0'.toNat)) 0

theorem digitChar_toNat : ∀ d, d < 10 → (Nat.digitChar d).toNat - '0'.toNat = d := by
  decide

theorem decListVal_myDigits (n : Nat) : decListVal (myDigits n) = n := by
  induction n using Nat.strong_induction_on with
  | _ n ih =>
    rw [myDigits]
    by_cases hn : n < 10
    · simp only [hn, if_true, decListVal, List.foldl]
      rw [digitChar_toNat n hn]
      omega
    · rw [dif_neg hn]
      have hdiv : n / 10 < n := Nat.div_lt_self (by omega) (by omega)
      have := ih (n / 10) hdiv
      unfold decListVal at this ⊢
      rw [List.foldl_append, this]
      simp only [List.foldl]
      rw [digitChar_toNat (n % 10) (Nat.mod_lt _ (by omega))]
      omega

theorem Nat_repr_injective {m n : Nat} (h : Nat.repr m = Nat.repr n) : m = n := by
  rw [repr_eq_myDigits, repr_eq_myDigits] at h
  have hd : myDigits m = myDigits n := congrArg String.data h
  have := decListVal_myDigits m
  rw [hd, decListVal_myDigits n] at this
  omega

/-! ## Board data model (`lib.rs` lines 79–208)

`Card` and `Column` are opaque payloads to the storage layer (their
fields are only (de)serialized, never read by the code under
verification), so they are embedded as opaque values. -/

structure Card where
  payload : String
deriving DecidableEq

structure Column where
  payload : String
deriving DecidableEq

/-- The board document (`Board` struct, lines 125–132). -/
structure Board where
  id : String
  name : String
  cards : List Card
  columns : List Column
deriving DecidableEq

/-- An index entry (`BoardMeta`, lines 134–142): `deletedAt` absent means
active, present means trashed. -/
structure BoardMeta where
  id : String
  name : String
  updatedAt : Int
  deletedAt : Option Int
deriving DecidableEq

/-- The persisted index (`BoardIndex`, lines 144–148). -/
structure BoardIndex where
  version : Nat
  boards : List BoardMeta
deriving DecidableEq

/-- `empty_board` (lines 201–208). -/
def empty_board (id name : String) : Board := ⟨id, name, [], []⟩

/-! ## Board id generation (`generate_board_id`, lines 332–347)

The Rust function checks each candidate against the index entries *and*
against directory existence on disk; `dirNames` models the set of names
present in the root directory (board directories, the `trash`
subdirectory, the `boards.json` index file). -/

/-- A candidate collides: present in the index or already on disk. -/
def idUsed (dirNames : List String) (index : BoardIndex) (c : String) : Bool :=
  index.boards.any (fun b => b.id == c) || dirNames.contains c

theorem candidate_injective (base : String) {j k : Nat}
    (h : base ++ "-" ++ Nat.repr j = base ++ "-" ++ Nat.repr k) : j = k := by
  have hd := congrArg String.data h
  rw [String.data_append, String.data_append, String.data_append, String.data_append] at hd
  rw [List.append_assoc, List.append_assoc] at hd
  have h2 := List.append_cancel_left hd
  have h3 := List.append_cancel_left h2
  exact Nat_repr_injective (String.ext h3)

theorem idUsed_mem {dirNames : List String} {index : BoardIndex} {c : String}
    (h : idUsed dirNames index c = true) :
    c ∈ index.boards.map (fun b => b.id) ++ dirNames := by
  unfold idUsed at h
  simp only [Bool.or_eq_true, List.any_eq_true, beq_iff_eq] at h
  rcases h with ⟨b, hb, rfl⟩ | h
  · exact List.mem_append_left _ (List.mem_map_of_mem _ hb)
  · exact List.mem_append_right _ (by simpa using h)

theorem exists_free_candidate (dirNames : List String) (index : BoardIndex)
    (base : String) :
    ∃ k, idUsed dirNames index (base ++ "-" ++ Nat.repr (k + 1)) = false := by
  by_contra hc
  push_neg at hc
  have hall : ∀ k, idUsed dirNames index (base ++ "-" ++ Nat.repr (k + 1)) = true := by
    intro k
    cases h : idUsed dirNames index (base ++ "-" ++ Nat.repr (k + 1)) with
    | false => exact absurd h (hc k)
    | true => rfl
  set L := index.boards.map (fun b => b.id) ++ dirNames with hL
  set C := (List.range (L.length + 1)).map (fun k => base ++ "-" ++ Nat.repr (k + 1)) with hC
  have hnodup : C.Nodup := by
    refine List.Nodup.map ?_ (List.nodup_range _)
    intro a b hab
    have := candidate_injective base hab
    omega
  have hsub : C ⊆ L := by
    intro c hcmem
    rw [hC] at hcmem
    simp only [List.mem_map, List.mem_range] at hcmem
    obtain ⟨k, _, rfl⟩ := hcmem
    exact idUsed_mem (hall k)
  have hle := (hnodup.subperm hsub).length_le
  simp [hC] at hle

/-- `generate_board_id` (lines 332–347): `board-<now>` if free, otherwise
`board-<now>-<i>` for the first free `i = 1, 2, …`. -/
def generate_board_id (dirNames : List String) (index : BoardIndex) (now : Int) : String :=
  let base := "board-" ++ toString now
  if idUsed dirNames index base = false then base
  else
    base ++ "-" ++ Nat.repr
      (Nat.find (exists_free_candidate dirNames index base) + 1)

theorem generate_board_id_fresh (dirNames : List String) (index : BoardIndex)
    (now : Int) : idUsed dirNames index (generate_board_id dirNames index now) = false := by
  unfold generate_board_id
  by_cases h : idUsed dirNames index ("board-" ++ toString now) = false
  · simp [h]
  · simp only [h, if_false]
    exact Nat.find_spec (exists_free_candidate dirNames index ("board-" ++ toString now))

/-- **C4.** `generate_board_id` returns `board-<now>` when that id is
free, and otherwise `board-<now>-<k>` for the smallest `k ≥ 1` that is
free; in all cases the result collides neither with any index entry nor
with any name existing in the root directory on disk — the disk check
makes this hold even when the index is stale relative to the
filesystem. -/
theorem C4_generate_board_id (dirNames : List String) (index : BoardIndex) (now : Int) :
    (∀ b ∈ index.boards, b.id ≠ generate_board_id dirNames index now) ∧
    generate_board_id dirNames index now ∉ dirNames ∧
    (generate_board_id dirNames index now = "board-" ++ toString now ∨
      (idUsed dirNames index ("board-" ++ toString now) = true ∧
        ∃ k, 1 ≤ k ∧
          generate_board_id dirNames index now = "board-" ++ toString now ++ "-" ++ Nat.repr k ∧
          ∀ j, 1 ≤ j → j < k →
            idUsed dirNames index ("board-" ++ toString now ++ "-" ++ Nat.repr j) = true)) := by
  have hfresh := generate_board_id_fresh dirNames index now
  refine ⟨?_, ?_, ?_⟩
  · intro b hb heq
    unfold idUsed at hfresh
    simp only [Bool.or_eq_false_iff, List.any_eq_false] at hfresh
    have hb' := hfresh.1 b hb
    simp only [beq_iff_eq] at hb'
    exact hb' heq
  · intro hmem
    unfold idUsed at hfresh
    simp only [Bool.or_eq_false_iff] at hfresh
    have := hfresh.2
    simp at this
    exact this hmem
  · unfold generate_board_id
    by_cases h : idUsed dirNames index ("board-" ++ toString now) = false
    · left; simp [h]
    · right
      refine ⟨by simpa using h,
        Nat.find (exists_free_candidate dirNames index ("board-" ++ toString now)) + 1,
        by omega, ?_, ?_⟩
      · rw [if_neg h]
      intro j h1 hj
      have hlt : j - 1 < Nat.find (exists_free_candidate dirNames index ("board-" ++ toString now)) := by
        omega
      have := Nat.find_min (exists_free_candidate dirNames index ("board-" ++ toString now)) hlt
      have hj1 : j - 1 + 1 = j := by omega
      rw [hj1] at this
      cases hres : idUsed dirNames index ("board-" ++ toString now ++ "-" ++ Nat.repr j) with
      | false => exact absurd hres this
      | true => rfl

/-! ## Filesystem state and the index lifecycle

The on-disk layout is `<root>/<boardId>/board.json` for active boards and
`<root>/trash/<boardId>/board.json` for trashed ones.  `Fs.active` and
`Fs.trash` model the directories under the root (resp. the trash
subdirectory) that contain a `board.json` — directories without one are
skipped by every scan in the source and are not modelled.  A directory
whose `board.json` exists but does not parse has `doc = none`.  `mtime`
models `file_modified_millis` of `board.json`; writing the file sets it
to the operation's clock value.  Each modelled command takes a single
`now : Int` for all its `now_millis()` calls (within one command the
clock is modelled as constant).

`read_index` is modelled for the states the modelled operations produce:
the index file exists and parses (the source additionally rebuilds when
it is missing or unparsable, and rebuilds when the parsed entry list is
empty, which the model reproduces).  After `read_index` the stored file
always equals the returned index (rebuild always writes; reconcile
writes exactly when it changed something), so the state's `index` is
replaced by the returned value. -/

/-- A board directory containing a `board.json` (possibly unparsable). -/
structure FsDir where
  id : String
  doc : Option Board
  mtime : Int
deriving DecidableEq

structure Fs where
  active : List FsDir
  trash : List FsDir
deriving DecidableEq

/-- Full persistent state: the directories and the stored index file. -/
structure St where
  fs : Fs
  index : BoardIndex
deriving DecidableEq

/-- `read_board_name(file).unwrap_or_else(|| board_id.clone())`. -/
def readName (d : FsDir) : String :=
  match d.doc with
  | some b => b.name
  | none => d.id

def activeIds (fs : Fs) : List String := fs.active.map (fun d => d.id)

def trashIds (fs : Fs) : List String := fs.trash.map (fun d => d.id)

/-- The active directories a scan accepts (valid id; `board.json` present
by construction of the model). -/
def vActive (fs : Fs) : List FsDir := fs.active.filter (fun d => is_valid_board_id d.id)

def vTrash (fs : Fs) : List FsDir := fs.trash.filter (fun d => is_valid_board_id d.id)

def vActiveIds (fs : Fs) : List String := (vActive fs).map (fun d => d.id)

def vTrashIds (fs : Fs) : List String := (vTrash fs).map (fun d => d.id)

/-- `rebuild_index_from_fs` (lines 458–521): scan the active root, then
the trash root; active entries carry `deletedAt = none`, trash entries
use the file's mtime for both timestamps. -/
def rebuild_index_from_fs (fs : Fs) : BoardIndex :=
  ⟨1, (vActive fs).map (fun d => ⟨d.id, readName d, d.mtime, none⟩)
    ++ (vTrash fs).map (fun d => ⟨d.id, readName d, d.mtime, some d.mtime⟩)⟩

/-- The active-scan body of `sync_index_with_fs` (lines 550–567): update
the first index entry with this id (name and `updatedAt` only) or append
a fresh active entry; the `Bool` reports whether anything changed. -/
def upsertActiveEntry (d : FsDir) : List BoardMeta → List BoardMeta × Bool
  | [] => ([⟨d.id, readName d, d.mtime, none⟩], true)
  | b :: bs =>
    if b.id = d.id then
      if b.name = readName d ∧ b.updatedAt = d.mtime then (b :: bs, false)
      else ({ b with name := readName d, updatedAt := d.mtime } :: bs, true)
    else
      let r := upsertActiveEntry d bs
      (b :: r.1, r.2)

/-- The trash-scan body of `sync_index_with_fs` (lines 593–614): update
name, `updatedAt` and `deletedAt` (all to the trash file's mtime) or
append a fresh deleted entry. -/
def upsertTrashEntry (d : FsDir) : List BoardMeta → List BoardMeta × Bool
  | [] => ([⟨d.id, readName d, d.mtime, some d.mtime⟩], true)
  | b :: bs =>
    if b.id = d.id then
      if b.name = readName d ∧ b.updatedAt = d.mtime ∧ b.deletedAt = some d.mtime then
        (b :: bs, false)
      else
        ({ b with name := readName d, updatedAt := d.mtime, deletedAt := some d.mtime } :: bs,
          true)
    else
      let r := upsertTrashEntry d bs
      (b :: r.1, r.2)

def syncFold (f : FsDir → List BoardMeta → List BoardMeta × Bool)
    (ds : List FsDir) (st : List BoardMeta × Bool) : List BoardMeta × Bool :=
  ds.foldl (fun acc d => let r := f d acc.1; (r.1, acc.2 || r.2)) st

/-- The `retain` predicate (lines 619–625): a deleted entry survives iff
its id was seen in the trash scan, an active entry iff seen in the
active scan. -/
def keepEntry (seen seenTrash : List String) (b : BoardMeta) : Bool :=
  match b.deletedAt with
  | some _ => seenTrash.contains b.id
  | none => seen.contains b.id

/-- `sync_index_with_fs` (lines 523–634).  Returns the reconciled index
and the `changed` flag (the write happens iff the flag is set; when it
is clear the returned index equals the input, so the stored file matches
the return value either way). -/
def sync_index_with_fs (fs : Fs) (idx : BoardIndex) : BoardIndex × Bool :=
  let s1 := syncFold upsertActiveEntry (vActive fs) (idx.boards, false)
  let s2 := syncFold upsertTrashEntry (vTrash fs) s1
  let kept := s2.1.filter (keepEntry (vActiveIds fs) (vTrashIds fs))
  (⟨idx.version, kept⟩, s2.2 || !(kept.length == s2.1.length))

/-- `read_index` (lines 286–303), for states where the index file exists
and parses: an empty entry list triggers a full rebuild, otherwise a
reconcile pass. -/
def read_index (st : St) : BoardIndex :=
  if st.index.boards.isEmpty then rebuild_index_from_fs st.fs
  else (sync_index_with_fs st.fs st.index).1

/-- First-match upsert used by `ensure_board_index_contains`
(lines 310–330): force name, `updatedAt := now`, clear `deletedAt`;
append if absent. -/
def upsertMeta (id name : String) (now : Int) : List BoardMeta → List BoardMeta
  | [] => [⟨id, name, now, none⟩]
  | b :: bs =>
    if b.id = id then { b with name := name, updatedAt := now, deletedAt := none } :: bs
    else b :: upsertMeta id name now bs

def ensure_board_index_contains (idx : BoardIndex) (id name : String) (now : Int) :
    BoardIndex :=
  ⟨idx.version, upsertMeta id name now idx.boards⟩

/-- `ensure_board_file` (lines 251–260): create the board directory (and
assets dir) if absent and write an initial empty document; when the
directory (hence, in this model, its `board.json`) already exists,
nothing changes. -/
def ensure_board_file (fs : Fs) (id name : String) (now : Int) : Fs :=
  if (fs.active.map (fun d => d.id)).contains id then fs
  else ⟨fs.active ++ [⟨id, some (empty_board id name), now⟩], fs.trash⟩

/-- `write_board_atomic` (lines 262–273): replace the board document of
the directory `root/<id>` (callers ensure it exists first). -/
def write_board_atomic (fs : Fs) (id : String) (b : Board) (now : Int) : Fs :=
  ⟨fs.active.map (fun d => if d.id = id then ⟨d.id, some b, now⟩ else d), fs.trash⟩

/-- The names present in the root directory, as consulted by
`generate_board_id`'s `exists()` check: the board directories, the
`trash` subdirectory and the `boards.json` index file. -/
def rootNames (fs : Fs) : List String :=
  fs.active.map (fun d => d.id) ++ ["trash", "boards.json"]

/-- `create_board` (lines 709–730). -/
def create_board (st : St) (name : String) (now : Int) : BoardMeta × St :=
  let idx := read_index st
  let id := generate_board_id (rootNames st.fs) idx now
  let safe := if name.trim.isEmpty then "Untitled" else name.trim
  let fs1 := ensure_board_file st.fs id safe now
  let meta : BoardMeta := ⟨id, safe, now, none⟩
  (meta, ⟨fs1, ⟨idx.version, idx.boards ++ [meta]⟩⟩)

/-- First-match marking of `delete_board`'s index loop (lines 739–745). -/
def markDeleted (id : String) (now : Int) : List BoardMeta → List BoardMeta
  | [] => []
  | b :: bs =>
    if b.id = id then { b with deletedAt := some now } :: bs
    else b :: markDeleted id now bs

/-- `delete_board` (lines 732–763): mark the first index entry with this
id deleted (`NotFound` if none — note the entry is *not* required to be
active); then, if the active directory exists, move it into the trash
area, removing any previous trash directory of the same id. -/
def delete_board (st : St) (id : String) (now : Int) : Except String Unit × St :=
  if is_valid_board_id id = false then (.error "invalid board id", st)
  else
    let idx := read_index st
    if idx.boards.any (fun b => b.id == id) then
      let idx2 : BoardIndex := ⟨idx.version, markDeleted id now idx.boards⟩
      let fs2 : Fs :=
        if (st.fs.active.map (fun d => d.id)).contains id then
          ⟨st.fs.active.filter (fun d => d.id ≠ id),
            st.fs.trash.filter (fun d => d.id ≠ id)
              ++ st.fs.active.filter (fun d => d.id = id)⟩
        else st.fs
      (.ok (), ⟨fs2, idx2⟩)
    else (.error "board not found", ⟨st.fs, idx⟩)

/-- `restore_board` (lines 765–787): `NotFound` if no trash directory,
`AlreadyExists` if an active directory exists; otherwise move the
directory back, then reconcile and upsert an active entry named after
the restored document. -/
def restore_board (st : St) (id : String) (now : Int) : Except String Unit × St :=
  if is_valid_board_id id = false then (.error "invalid board id", st)
  else if (st.fs.trash.map (fun d => d.id)).contains id = false then
    (.error "board not found in trash", st)
  else if (st.fs.active.map (fun d => d.id)).contains id then
    (.error "board already exists", st)
  else
    let moved := st.fs.trash.filter (fun d => d.id = id)
    let fs1 : Fs := ⟨st.fs.active ++ moved, st.fs.trash.filter (fun d => d.id ≠ id)⟩
    let name :=
      match moved with
      | d :: _ => readName d
      | [] => id
    let idx := read_index ⟨fs1, st.index⟩
    (.ok (), ⟨fs1, ensure_board_index_contains idx id name now⟩)

/-- `save_board` (lines 1057–1083): id mismatch and deleted-entry checks,
then ensure the directory, write the document atomically and upsert the
index entry. -/
def save_board (st : St) (id : String) (b : Board) (now : Int) :
    Except String Unit × St :=
  if is_valid_board_id id = false then (.error "invalid board id", st)
  else if b.id ≠ id then (.error "board id mismatch", st)
  else
    let idx := read_index st
    let proceed : Except String Unit × St :=
      let fs1 := ensure_board_file st.fs id b.name now
      let fs2 := write_board_atomic fs1 id b now
      (.ok (), ⟨fs2, ensure_board_index_contains idx id b.name now⟩)
    match idx.boards.find? (fun m => m.id == id) with
    | some meta =>
      if meta.deletedAt.isSome then (.error "board is deleted", ⟨st.fs, idx⟩)
      else proceed
    | none => proceed

/-- `load_board` (lines 1024–1055): ensure the directory exists, read the
document; correct a mismatched embedded id (rewriting the file); replace
an unparsable document by a fresh empty one. -/
def load_board (st : St) (id : String) (now : Int) : Except String Board × St :=
  if is_valid_board_id id = false then (.error "invalid board id", st)
  else
    let idx := read_index st
    let name :=
      match idx.boards.find? (fun m => m.id == id) with
      | some m => m.name
      | none => "Untitled"
    let fs1 := ensure_board_file st.fs id name now
    match fs1.active.find? (fun d => d.id == id) with
    | none => (.error "read failed", ⟨fs1, idx⟩)
    | some d =>
      match d.doc with
      | some board =>
        if board.id ≠ id then
          let fixed := { board with id := id }
          (.ok fixed, ⟨write_board_atomic fs1 id fixed now, idx⟩)
        else (.ok board, ⟨fs1, idx⟩)
      | none =>
        let fresh := empty_board id name
        (.ok fresh, ⟨write_board_atomic fs1 id fresh now, idx⟩)

/-- The command alphabet of claim C1. -/
inductive Cmd
  | create (name : String)
  | delete (id : String)
  | restore (id : String)
deriving DecidableEq

def step (st : St) : Cmd × Int → St
  | (.create name, now) => (create_board st name now).2
  | (.delete id, now) => (delete_board st id now).2
  | (.restore id, now) => (restore_board st id now).2

def run (st : St) (ops : List (Cmd × Int)) : St := ops.foldl step st

/-! ## Lemmas about the index-editing primitives -/

def metaIds (bs : List BoardMeta) : List String := bs.map (fun b => b.id)

@[simp] theorem metaIds_nil : metaIds [] = [] := rfl

@[simp] theorem metaIds_cons (b : BoardMeta) (bs : List BoardMeta) :
    metaIds (b :: bs) = b.id :: metaIds bs := rfl

@[simp] theorem metaIds_append (bs cs : List BoardMeta) :
    metaIds (bs ++ cs) = metaIds bs ++ metaIds cs := by
  simp [metaIds]

theorem mem_metaIds {bs : List BoardMeta} {i : String} :
    i ∈ metaIds bs ↔ ∃ b ∈ bs, b.id = i := by
  simp [metaIds, eq_comm]

theorem upsertActive_mem_ne {d : FsDir} {bs : List BoardMeta} {b : BoardMeta}
    (hb : b ∈ bs) (hne : b.id ≠ d.id) : b ∈ (upsertActiveEntry d bs).1 := by
  induction bs with
  | nil => cases hb
  | cons b0 rest ih =>
    simp only [upsertActiveEntry]
    by_cases h0 : b0.id = d.id
    · rw [if_pos h0]
      split
      · exact hb
      · rcases List.mem_cons.mp hb with rfl | hmem
        · exact absurd h0 hne
        · exact List.mem_cons_of_mem _ hmem
    · rw [if_neg h0]
      rcases List.mem_cons.mp hb with rfl | hmem
      · exact List.mem_cons_self _ _
      · exact List.mem_cons_of_mem _ (ih hmem)

theorem upsertActive_origin {d : FsDir} {bs : List BoardMeta} :
    ∀ b' ∈ (upsertActiveEntry d bs).1,
      (∃ b ∈ bs, b'.id = b.id ∧ b'.deletedAt = b.deletedAt) ∨
        (b'.id = d.id ∧ b'.deletedAt = none) := by
  induction bs with
  | nil =>
    intro b' hb'
    simp only [upsertActiveEntry, List.mem_singleton] at hb'
    subst hb'
    exact Or.inr ⟨rfl, rfl⟩
  | cons b0 rest ih =>
    intro b' hb'
    simp only [upsertActiveEntry] at hb'
    by_cases h0 : b0.id = d.id
    · rw [if_pos h0] at hb'
      split at hb'
      · exact Or.inl ⟨b', hb', rfl, rfl⟩
      · rcases List.mem_cons.mp hb' with rfl | hmem
        · exact Or.inl ⟨b0, List.mem_cons_self _ _, h0.symm ▸ rfl, rfl⟩
        · exact Or.inl ⟨b', List.mem_cons_of_mem _ hmem, rfl, rfl⟩
    · rw [if_neg h0] at hb'
      rcases List.mem_cons.mp hb' with rfl | hmem
      · exact Or.inl ⟨b', List.mem_cons_self _ _, rfl, rfl⟩
      · rcases ih b' hmem with ⟨b, hbmem, h1, h2⟩ | h
        · exact Or.inl ⟨b, List.mem_cons_of_mem _ hbmem, h1, h2⟩
        · exact Or.inr h

theorem upsertActive_ids_of_mem {d : FsDir} {bs : List BoardMeta}
    (h : d.id ∈ metaIds bs) : metaIds (upsertActiveEntry d bs).1 = metaIds bs := by
  induction bs with
  | nil => simp at h
  | cons b0 rest ih =>
    simp only [upsertActiveEntry]
    by_cases h0 : b0.id = d.id
    · rw [if_pos h0]
      split
      · rfl
      · simp [h0]
    · rw [if_neg h0]
      have hmem : d.id ∈ metaIds rest := by
        rcases (List.mem_cons.mp h) with heq | hmem
        · exact absurd heq.symm h0
        · exact hmem
      simp [ih hmem]

theorem upsertActive_of_not_mem {d : FsDir} {bs : List BoardMeta}
    (h : d.id ∉ metaIds bs) :
    upsertActiveEntry d bs = (bs ++ [⟨d.id, readName d, d.mtime, none⟩], true) := by
  induction bs with
  | nil => simp [upsertActiveEntry]
  | cons b0 rest ih =>
    simp only [upsertActiveEntry]
    have h0 : b0.id ≠ d.id := fun he => h (by simp [he])
    rw [if_neg h0]
    have : d.id ∉ metaIds rest := fun hm => h (by simp [hm])
    rw [ih this]
    rfl

theorem upsertActive_find {d : FsDir} {bs : List BoardMeta} :
    (upsertActiveEntry d bs).1.find? (fun b => b.id == d.id) =
      some ⟨d.id, readName d, d.mtime,
        ((bs.find? (fun b => b.id == d.id)).elim none (fun b => b.deletedAt))⟩ := by
  induction bs with
  | nil => simp [upsertActiveEntry, List.find?]
  | cons b0 rest ih =>
    simp only [upsertActiveEntry]
    by_cases h0 : b0.id = d.id
    · rw [if_pos h0]
      split
      · rename_i hcond
        rw [List.find?_cons_of_pos _ (by simp [h0])]
        simp only [Option.elim]
        cases b0
        simp only at h0 hcond
        simp [h0, hcond.1, hcond.2]
      · rw [List.find?_cons_of_pos _ (by simp [h0]), List.find?_cons_of_pos _ (by simp [h0])]
        simp only [Option.elim]
        cases b0
        simp only at h0
        simp [h0]
    · rw [if_neg h0]
      rw [List.find?_cons_of_neg _ (by simp [h0]), List.find?_cons_of_neg _ (by simp [h0])]
      exact ih

theorem upsertActive_find_ne {d : FsDir} {bs : List BoardMeta} {i : String}
    (h : i ≠ d.id) :
    (upsertActiveEntry d bs).1.find? (fun b => b.id == i) =
      bs.find? (fun b => b.id == i) := by
  induction bs with
  | nil =>
    have hdi : (d.id == i) = false := beq_eq_false_iff_ne.mpr (Ne.symm h)
    simp [upsertActiveEntry, List.find?, hdi]
  | cons b0 rest ih =>
    simp only [upsertActiveEntry]
    by_cases h0 : b0.id = d.id
    · rw [if_pos h0]
      have hb0 : ¬ ((b0.id == i) = true) := by simp [h0, Ne.symm h]
      split
      · rfl
      · have hup : ¬ ((({ b0 with name := readName d, updatedAt := d.mtime } : BoardMeta).id
            == i) = true) := by simp [h0, Ne.symm h]
        dsimp only
        rw [List.find?_cons_of_neg (p := fun b : BoardMeta => b.id == i) _ hup,
          List.find?_cons_of_neg (p := fun b : BoardMeta => b.id == i) _ hb0]
    · rw [if_neg h0]
      by_cases hb0 : b0.id = i
      · rw [List.find?_cons_of_pos _ (by simp [hb0]), List.find?_cons_of_pos _ (by simp [hb0])]
      · rw [List.find?_cons_of_neg _ (by simp [hb0]), List.find?_cons_of_neg _ (by simp [hb0])]
        exact ih

theorem upsertActive_nochange {d : FsDir} {bs : List BoardMeta} {e : BoardMeta}
    (hf : bs.find? (fun b => b.id == d.id) = some e)
    (hn : e.name = readName d) (hm : e.updatedAt = d.mtime) :
    upsertActiveEntry d bs = (bs, false) := by
  induction bs with
  | nil => simp [List.find?] at hf
  | cons b0 rest ih =>
    simp only [upsertActiveEntry]
    by_cases h0 : b0.id = d.id
    · rw [if_pos h0]
      rw [List.find?_cons_of_pos _ (by simp [h0])] at hf
      injection hf with hf
      subst hf
      rw [if_pos ⟨hn, hm⟩]
    · rw [if_neg h0]
      rw [List.find?_cons_of_neg _ (by simp [h0])] at hf
      rw [ih hf]

theorem upsertTrash_mem_ne {d : FsDir} {bs : List BoardMeta} {b : BoardMeta}
    (hb : b ∈ bs) (hne : b.id ≠ d.id) : b ∈ (upsertTrashEntry d bs).1 := by
  induction bs with
  | nil => cases hb
  | cons b0 rest ih =>
    simp only [upsertTrashEntry]
    by_cases h0 : b0.id = d.id
    · rw [if_pos h0]
      split
      · exact hb
      · rcases List.mem_cons.mp hb with rfl | hmem
        · exact absurd h0 hne
        · exact List.mem_cons_of_mem _ hmem
    · rw [if_neg h0]
      rcases List.mem_cons.mp hb with rfl | hmem
      · exact List.mem_cons_self _ _
      · exact List.mem_cons_of_mem _ (ih hmem)

theorem upsertTrash_origin {d : FsDir} {bs : List BoardMeta} :
    ∀ b' ∈ (upsertTrashEntry d bs).1,
      (∃ b ∈ bs, b'.id = b.id ∧ b'.deletedAt = b.deletedAt) ∨
        (b'.id = d.id ∧ b'.deletedAt = some d.mtime) := by
  induction bs with
  | nil =>
    intro b' hb'
    simp only [upsertTrashEntry, List.mem_singleton] at hb'
    subst hb'
    exact Or.inr ⟨rfl, rfl⟩
  | cons b0 rest ih =>
    intro b' hb'
    simp only [upsertTrashEntry] at hb'
    by_cases h0 : b0.id = d.id
    · rw [if_pos h0] at hb'
      split at hb'
      · exact Or.inl ⟨b', hb', rfl, rfl⟩
      · rcases List.mem_cons.mp hb' with rfl | hmem
        · exact Or.inr ⟨h0, rfl⟩
        · exact Or.inl ⟨b', List.mem_cons_of_mem _ hmem, rfl, rfl⟩
    · rw [if_neg h0] at hb'
      rcases List.mem_cons.mp hb' with rfl | hmem
      · exact Or.inl ⟨b', List.mem_cons_self _ _, rfl, rfl⟩
      · rcases ih b' hmem with ⟨b, hbmem, h1, h2⟩ | h
        · exact Or.inl ⟨b, List.mem_cons_of_mem _ hbmem, h1, h2⟩
        · exact Or.inr h

theorem upsertTrash_ids_of_mem {d : FsDir} {bs : List BoardMeta}
    (h : d.id ∈ metaIds bs) : metaIds (upsertTrashEntry d bs).1 = metaIds bs := by
  induction bs with
  | nil => simp at h
  | cons b0 rest ih =>
    simp only [upsertTrashEntry]
    by_cases h0 : b0.id = d.id
    · rw [if_pos h0]
      split
      · rfl
      · simp [h0]
    · rw [if_neg h0]
      have hmem : d.id ∈ metaIds rest := by
        rcases (List.mem_cons.mp h) with heq | hmem
        · exact absurd heq.symm h0
        · exact hmem
      simp [ih hmem]

theorem upsertTrash_of_not_mem {d : FsDir} {bs : List BoardMeta}
    (h : d.id ∉ metaIds bs) :
    upsertTrashEntry d bs = (bs ++ [⟨d.id, readName d, d.mtime, some d.mtime⟩], true) := by
  induction bs with
  | nil => simp [upsertTrashEntry]
  | cons b0 rest ih =>
    simp only [upsertTrashEntry]
    have h0 : b0.id ≠ d.id := fun he => h (by simp [he])
    rw [if_neg h0]
    have : d.id ∉ metaIds rest := fun hm => h (by simp [hm])
    rw [ih this]
    rfl

theorem upsertTrash_find {d : FsDir} {bs : List BoardMeta} :
    (upsertTrashEntry d bs).1.find? (fun b => b.id == d.id) =
      some ⟨d.id, readName d, d.mtime, some d.mtime⟩ := by
  induction bs with
  | nil => simp [upsertTrashEntry, List.find?]
  | cons b0 rest ih =>
    simp only [upsertTrashEntry]
    by_cases h0 : b0.id = d.id
    · rw [if_pos h0]
      split
      · rename_i hcond
        rw [List.find?_cons_of_pos _ (by simp [h0])]
        cases b0
        simp only at h0 hcond
        simp [h0, hcond.1, hcond.2.1, hcond.2.2]
      · rw [List.find?_cons_of_pos _ (by simp [h0])]
        cases b0
        simp only at h0
        simp [h0]
    · rw [if_neg h0]
      rw [List.find?_cons_of_neg _ (by simp [h0])]
      exact ih

theorem upsertTrash_find_ne {d : FsDir} {bs : List BoardMeta} {i : String}
    (h : i ≠ d.id) :
    (upsertTrashEntry d bs).1.find? (fun b => b.id == i) =
      bs.find? (fun b => b.id == i) := by
  induction bs with
  | nil =>
    have hdi : (d.id == i) = false := beq_eq_false_iff_ne.mpr (Ne.symm h)
    simp [upsertTrashEntry, List.find?, hdi]
  | cons b0 rest ih =>
    simp only [upsertTrashEntry]
    by_cases h0 : b0.id = d.id
    · rw [if_pos h0]
      have hb0 : ¬ ((b0.id == i) = true) := by simp [h0, Ne.symm h]
      split
      · rfl
      · have hup : ¬ (((⟨b0.id, readName d, d.mtime, some d.mtime⟩ : BoardMeta).id == i)
            = true) := by simp [h0, Ne.symm h]
        dsimp only
        rw [List.find?_cons_of_neg (p := fun b : BoardMeta => b.id == i) _ hup,
          List.find?_cons_of_neg (p := fun b : BoardMeta => b.id == i) _ hb0]
    · rw [if_neg h0]
      by_cases hb0 : b0.id = i
      · rw [List.find?_cons_of_pos _ (by simp [hb0]), List.find?_cons_of_pos _ (by simp [hb0])]
      · rw [List.find?_cons_of_neg _ (by simp [hb0]), List.find?_cons_of_neg _ (by simp [hb0])]
        exact ih

theorem upsertTrash_nochange {d : FsDir} {bs : List BoardMeta} {e : BoardMeta}
    (hf : bs.find? (fun b => b.id == d.id) = some e)
    (hn : e.name = readName d) (hm : e.updatedAt = d.mtime)
    (hd : e.deletedAt = some d.mtime) :
    upsertTrashEntry d bs = (bs, false) := by
  induction bs with
  | nil => simp [List.find?] at hf
  | cons b0 rest ih =>
    simp only [upsertTrashEntry]
    by_cases h0 : b0.id = d.id
    · rw [if_pos h0]
      rw [List.find?_cons_of_pos _ (by simp [h0])] at hf
      injection hf with hf
      subst hf
      rw [if_pos ⟨hn, hm, hd⟩]
    · rw [if_neg h0]
      rw [List.find?_cons_of_neg _ (by simp [h0])] at hf
      rw [ih hf]

theorem upsertMeta_mem_ne {id name : String} {now : Int} {bs : List BoardMeta}
    {b : BoardMeta} (hb : b ∈ bs) (hne : b.id ≠ id) :
    b ∈ upsertMeta id name now bs := by
  induction bs with
  | nil => cases hb
  | cons b0 rest ih =>
    simp only [upsertMeta]
    by_cases h0 : b0.id = id
    · rw [if_pos h0]
      rcases List.mem_cons.mp hb with rfl | hmem
      · exact absurd h0 hne
      · exact List.mem_cons_of_mem _ hmem
    · rw [if_neg h0]
      rcases List.mem_cons.mp hb with rfl | hmem
      · exact List.mem_cons_self _ _
      · exact List.mem_cons_of_mem _ (ih hmem)

theorem upsertMeta_origin {id name : String} {now : Int} {bs : List BoardMeta} :
    ∀ b' ∈ upsertMeta id name now bs,
      b' ∈ bs ∨
        (b'.id = id ∧ b'.name = name ∧ b'.updatedAt = now ∧ b'.deletedAt = none) := by
  induction bs with
  | nil =>
    intro b' hb'
    simp only [upsertMeta, List.mem_singleton] at hb'
    subst hb'
    exact Or.inr ⟨rfl, rfl, rfl, rfl⟩
  | cons b0 rest ih =>
    intro b' hb'
    simp only [upsertMeta] at hb'
    by_cases h0 : b0.id = id
    · rw [if_pos h0] at hb'
      rcases List.mem_cons.mp hb' with rfl | hmem
      · exact Or.inr ⟨h0, rfl, rfl, rfl⟩
      · exact Or.inl (List.mem_cons_of_mem _ hmem)
    · rw [if_neg h0] at hb'
      rcases List.mem_cons.mp hb' with rfl | hmem
      · exact Or.inl (List.mem_cons_self _ _)
      · rcases ih b' hmem with hm | hr
        · exact Or.inl (List.mem_cons_of_mem _ hm)
        · exact Or.inr hr

theorem upsertMeta_exists {id name : String} {now : Int} {bs : List BoardMeta} :
    ∃ b' ∈ upsertMeta id name now bs,
      b'.id = id ∧ b'.name = name ∧ b'.updatedAt = now ∧ b'.deletedAt = none := by
  induction bs with
  | nil =>
    exact ⟨⟨id, name, now, none⟩, by simp [upsertMeta], rfl, rfl, rfl, rfl⟩
  | cons b0 rest ih =>
    simp only [upsertMeta]
    by_cases h0 : b0.id = id
    · rw [if_pos h0]
      exact ⟨_, List.mem_cons_self _ _, h0, rfl, rfl, rfl⟩
    · rw [if_neg h0]
      obtain ⟨b', hmem, hprops⟩ := ih
      exact ⟨b', List.mem_cons_of_mem _ hmem, hprops⟩

theorem upsertMeta_ids_of_mem {id name : String} {now : Int} {bs : List BoardMeta}
    (h : id ∈ metaIds bs) : metaIds (upsertMeta id name now bs) = metaIds bs := by
  induction bs with
  | nil => simp at h
  | cons b0 rest ih =>
    simp only [upsertMeta]
    by_cases h0 : b0.id = id
    · rw [if_pos h0]; simp [h0]
    · rw [if_neg h0]
      have hmem : id ∈ metaIds rest := by
        rcases (List.mem_cons.mp h) with heq | hmem
        · exact absurd heq.symm h0
        · exact hmem
      simp [ih hmem]

theorem upsertMeta_of_not_mem {id name : String} {now : Int} {bs : List BoardMeta}
    (h : id ∉ metaIds bs) :
    upsertMeta id name now bs = bs ++ [⟨id, name, now, none⟩] := by
  induction bs with
  | nil => simp [upsertMeta]
  | cons b0 rest ih =>
    simp only [upsertMeta]
    have h0 : b0.id ≠ id := fun he => h (by simp [he])
    rw [if_neg h0]
    have : id ∉ metaIds rest := fun hm => h (by simp [hm])
    rw [ih this]
    rfl

theorem markDeleted_ids {id : String} {now : Int} (bs : List BoardMeta) :
    metaIds (markDeleted id now bs) = metaIds bs := by
  induction bs with
  | nil => rfl
  | cons b0 rest ih =>
    simp only [markDeleted]
    by_cases h0 : b0.id = id
    · rw [if_pos h0]; simp
    · rw [if_neg h0]; simp [ih]

theorem markDeleted_mem_ne {id : String} {now : Int} {bs : List BoardMeta}
    {b : BoardMeta} (hb : b ∈ bs) (hne : b.id ≠ id) : b ∈ markDeleted id now bs := by
  induction bs with
  | nil => cases hb
  | cons b0 rest ih =>
    simp only [markDeleted]
    by_cases h0 : b0.id = id
    · rw [if_pos h0]
      rcases List.mem_cons.mp hb with rfl | hmem
      · exact absurd h0 hne
      · exact List.mem_cons_of_mem _ hmem
    · rw [if_neg h0]
      rcases List.mem_cons.mp hb with rfl | hmem
      · exact List.mem_cons_self _ _
      · exact List.mem_cons_of_mem _ (ih hmem)

theorem markDeleted_origin {id : String} {now : Int} {bs : List BoardMeta} :
    ∀ b' ∈ markDeleted id now bs,
      b' ∈ bs ∨ (b'.id = id ∧ b'.deletedAt = some now) := by
  induction bs with
  | nil => intro b' hb'; cases hb'
  | cons b0 rest ih =>
    intro b' hb'
    simp only [markDeleted] at hb'
    by_cases h0 : b0.id = id
    · rw [if_pos h0] at hb'
      rcases List.mem_cons.mp hb' with rfl | hmem
      · exact Or.inr ⟨h0, rfl⟩
      · exact Or.inl (List.mem_cons_of_mem _ hmem)
    · rw [if_neg h0] at hb'
      rcases List.mem_cons.mp hb' with rfl | hmem
      · exact Or.inl (List.mem_cons_self _ _)
      · rcases ih b' hmem with hm | hr
        · exact Or.inl (List.mem_cons_of_mem _ hm)
        · exact Or.inr hr

theorem markDeleted_exists {id : String} {now : Int} {bs : List BoardMeta}
    (h : ∃ b ∈ bs, b.id = id) :
    ∃ b' ∈ markDeleted id now bs, b'.id = id ∧ b'.deletedAt = some now := by
  induction bs with
  | nil => simp at h
  | cons b0 rest ih =>
    simp only [markDeleted]
    by_cases h0 : b0.id = id
    · rw [if_pos h0]
      exact ⟨_, List.mem_cons_self _ _, h0, rfl⟩
    · rw [if_neg h0]
      obtain ⟨b, hbmem, hbid⟩ := h
      rcases List.mem_cons.mp hbmem with rfl | hmem
      · exact absurd hbid h0
      · obtain ⟨b', hb'mem, hprops⟩ := ih ⟨b, hmem, hbid⟩
        exact ⟨b', List.mem_cons_of_mem _ hb'mem, hprops⟩

theorem syncFold_cons (f : FsDir → List BoardMeta → List BoardMeta × Bool)
    (d : FsDir) (ds : List FsDir) (bs : List BoardMeta) (fl : Bool) :
    syncFold f (d :: ds) (bs, fl) = syncFold f ds ((f d bs).1, fl || (f d bs).2) := rfl

theorem foldA_mem_ne {ds : List FsDir} {bs : List BoardMeta} {fl : Bool} {b : BoardMeta}
    (hb : b ∈ bs) (hne : ∀ d ∈ ds, b.id ≠ d.id) :
    b ∈ (syncFold upsertActiveEntry ds (bs, fl)).1 := by
  induction ds generalizing bs fl with
  | nil => exact hb
  | cons d0 rest ih =>
    rw [syncFold_cons]
    exact ih (upsertActive_mem_ne hb (hne d0 (List.mem_cons_self _ _)))
      (fun d hd => hne d (List.mem_cons_of_mem _ hd))

theorem foldT_mem_ne {ds : List FsDir} {bs : List BoardMeta} {fl : Bool} {b : BoardMeta}
    (hb : b ∈ bs) (hne : ∀ d ∈ ds, b.id ≠ d.id) :
    b ∈ (syncFold upsertTrashEntry ds (bs, fl)).1 := by
  induction ds generalizing bs fl with
  | nil => exact hb
  | cons d0 rest ih =>
    rw [syncFold_cons]
    exact ih (upsertTrash_mem_ne hb (hne d0 (List.mem_cons_self _ _)))
      (fun d hd => hne d (List.mem_cons_of_mem _ hd))

theorem foldA_origin {ds : List FsDir} {bs : List BoardMeta} {fl : Bool} :
    ∀ b' ∈ (syncFold upsertActiveEntry ds (bs, fl)).1,
      (∃ b ∈ bs, b'.id = b.id ∧ b'.deletedAt = b.deletedAt) ∨
        (∃ d ∈ ds, b'.id = d.id ∧ b'.deletedAt = none) := by
  induction ds generalizing bs fl with
  | nil => intro b' hb'; exact Or.inl ⟨b', hb', rfl, rfl⟩
  | cons d0 rest ih =>
    intro b' hb'
    rw [syncFold_cons] at hb'
    rcases ih b' hb' with ⟨b1, hb1, h1, h2⟩ | ⟨d, hd, h⟩
    · rcases upsertActive_origin b1 hb1 with ⟨b, hb, g1, g2⟩ | ⟨g1, g2⟩
      · exact Or.inl ⟨b, hb, h1.trans g1, h2.trans g2⟩
      · exact Or.inr ⟨d0, List.mem_cons_self _ _, h1.trans g1, h2.trans g2⟩
    · exact Or.inr ⟨d, List.mem_cons_of_mem _ hd, h⟩

theorem foldT_origin {ds : List FsDir} {bs : List BoardMeta} {fl : Bool} :
    ∀ b' ∈ (syncFold upsertTrashEntry ds (bs, fl)).1,
      (∃ b ∈ bs, b'.id = b.id ∧ b'.deletedAt = b.deletedAt) ∨
        (∃ d ∈ ds, b'.id = d.id ∧ b'.deletedAt = some d.mtime) := by
  induction ds generalizing bs fl with
  | nil => intro b' hb'; exact Or.inl ⟨b', hb', rfl, rfl⟩
  | cons d0 rest ih =>
    intro b' hb'
    rw [syncFold_cons] at hb'
    rcases ih b' hb' with ⟨b1, hb1, h1, h2⟩ | ⟨d, hd, h⟩
    · rcases upsertTrash_origin b1 hb1 with ⟨b, hb, g1, g2⟩ | ⟨g1, g2⟩
      · exact Or.inl ⟨b, hb, h1.trans g1, h2.trans g2⟩
      · exact Or.inr ⟨d0, List.mem_cons_self _ _, h1.trans g1, h2.trans g2⟩
    · exact Or.inr ⟨d, List.mem_cons_of_mem _ hd, h⟩

theorem foldA_nodup {ds : List FsDir} {bs : List BoardMeta} {fl : Bool}
    (h : (metaIds bs).Nodup) :
    (metaIds (syncFold upsertActiveEntry ds (bs, fl)).1).Nodup := by
  induction ds generalizing bs fl with
  | nil => exact h
  | cons d0 rest ih =>
    rw [syncFold_cons]
    apply ih
    by_cases hmem : d0.id ∈ metaIds bs
    · rw [upsertActive_ids_of_mem hmem]; exact h
    · rw [upsertActive_of_not_mem hmem]
      simp only [metaIds_append, metaIds_cons, metaIds_nil]
      rw [List.nodup_append]
      refine ⟨h, List.nodup_singleton _, ?_⟩
      intro a ha hb
      rw [List.mem_singleton] at hb
      exact hmem (hb ▸ ha)

theorem foldT_nodup {ds : List FsDir} {bs : List BoardMeta} {fl : Bool}
    (h : (metaIds bs).Nodup) :
    (metaIds (syncFold upsertTrashEntry ds (bs, fl)).1).Nodup := by
  induction ds generalizing bs fl with
  | nil => exact h
  | cons d0 rest ih =>
    rw [syncFold_cons]
    apply ih
    by_cases hmem : d0.id ∈ metaIds bs
    · rw [upsertTrash_ids_of_mem hmem]; exact h
    · rw [upsertTrash_of_not_mem hmem]
      simp only [metaIds_append, metaIds_cons, metaIds_nil]
      rw [List.nodup_append]
      refine ⟨h, List.nodup_singleton _, ?_⟩
      intro a ha hb
      rw [List.mem_singleton] at hb
      exact hmem (hb ▸ ha)

theorem foldA_find_ne {ds : List FsDir} {bs : List BoardMeta} {fl : Bool} {i : String}
    (h : ∀ d ∈ ds, i ≠ d.id) :
    (syncFold upsertActiveEntry ds (bs, fl)).1.find? (fun b => b.id == i) =
      bs.find? (fun b => b.id == i) := by
  induction ds generalizing bs fl with
  | nil => rfl
  | cons d0 rest ih =>
    rw [syncFold_cons, ih (fun d hd => h d (List.mem_cons_of_mem _ hd))]
    exact upsertActive_find_ne (h d0 (List.mem_cons_self _ _))

theorem foldT_find_ne {ds : List FsDir} {bs : List BoardMeta} {fl : Bool} {i : String}
    (h : ∀ d ∈ ds, i ≠ d.id) :
    (syncFold upsertTrashEntry ds (bs, fl)).1.find? (fun b => b.id == i) =
      bs.find? (fun b => b.id == i) := by
  induction ds generalizing bs fl with
  | nil => rfl
  | cons d0 rest ih =>
    rw [syncFold_cons, ih (fun d hd => h d (List.mem_cons_of_mem _ hd))]
    exact upsertTrash_find_ne (h d0 (List.mem_cons_self _ _))

theorem foldA_find_mem {ds : List FsDir} {bs : List BoardMeta} {fl : Bool}
    (hnd : (ds.map (fun d => d.id)).Nodup) {d : FsDir} (hd : d ∈ ds) :
    ∃ e, (syncFold upsertActiveEntry ds (bs, fl)).1.find? (fun b => b.id == d.id) = some e ∧
      e.id = d.id ∧ e.name = readName d ∧ e.updatedAt = d.mtime ∧
      (e.deletedAt = none ∨ ∃ b ∈ bs, b.id = d.id ∧ e.deletedAt = b.deletedAt) := by
  induction ds generalizing bs fl with
  | nil => cases hd
  | cons d0 rest ih =>
    rw [syncFold_cons]
    rcases List.mem_cons.mp hd with rfl | hmem
    · have hne : ∀ d' ∈ rest, d.id ≠ d'.id := by
        intro d' hd' he
        rw [List.map_cons, List.nodup_cons] at hnd
        exact hnd.1 (he ▸ List.mem_map_of_mem _ hd')
      rw [foldA_find_ne hne]
      refine ⟨_, upsertActive_find, rfl, rfl, rfl, ?_⟩
      cases hfind : bs.find? (fun b => b.id == d.id) with
      | none => left; simp
      | some b =>
        right
        refine ⟨b, List.mem_of_find?_eq_some hfind, ?_, by simp⟩
        have := List.find?_some hfind
        simpa using this
    · rw [List.map_cons, List.nodup_cons] at hnd
      obtain ⟨e, hfind, hid, hn, hm, hdel⟩ :=
        @ih ((upsertActiveEntry d0 bs).1) (fl || (upsertActiveEntry d0 bs).2) hnd.2 hmem
      refine ⟨e, hfind, hid, hn, hm, ?_⟩
      rcases hdel with hnone | ⟨b', hb', hbid, hbdel⟩
      · exact Or.inl hnone
      · rcases upsertActive_origin b' hb' with ⟨b, hb, g1, g2⟩ | ⟨g1, g2⟩
        · exact Or.inr ⟨b, hb, g1 ▸ hbid, hbdel.trans g2⟩
        · have hne : d.id ≠ d0.id := by
            intro he
            exact hnd.1 (he ▸ List.mem_map_of_mem _ hmem)
          exact absurd (hbid ▸ g1 : d.id = d0.id) hne

theorem foldT_find_mem {ds : List FsDir} {bs : List BoardMeta} {fl : Bool}
    (hnd : (ds.map (fun d => d.id)).Nodup) {d : FsDir} (hd : d ∈ ds) :
    (syncFold upsertTrashEntry ds (bs, fl)).1.find? (fun b => b.id == d.id) =
      some ⟨d.id, readName d, d.mtime, some d.mtime⟩ := by
  induction ds generalizing bs fl with
  | nil => cases hd
  | cons d0 rest ih =>
    rw [syncFold_cons]
    rcases List.mem_cons.mp hd with rfl | hmem
    · have hne : ∀ d' ∈ rest, d.id ≠ d'.id := by
        intro d' hd' he
        rw [List.map_cons, List.nodup_cons] at hnd
        exact hnd.1 (he ▸ List.mem_map_of_mem _ hd')
      rw [foldT_find_ne hne]
      exact upsertTrash_find
    · rw [List.map_cons, List.nodup_cons] at hnd
      exact ih hnd.2 hmem

theorem find?_filter {α : Type} {p q : α → Bool} {l : List α} {e : α}
    (hf : l.find? p = some e) (hq : q e = true) :
    (l.filter q).find? p = some e := by
  induction l with
  | nil => simp [List.find?] at hf
  | cons a t ih =>
    by_cases hpa : p a = true
    · rw [List.find?_cons_of_pos _ hpa] at hf
      injection hf with hf
      subst hf
      rw [List.filter_cons_of_pos hq, List.find?_cons_of_pos _ hpa]
    · rw [List.find?_cons_of_neg _ hpa] at hf
      by_cases hqa : q a = true
      · rw [List.filter_cons_of_pos hqa, List.find?_cons_of_neg _ hpa]
        exact ih hf
      · rw [List.filter_cons_of_neg (by simpa using hqa)]
        exact ih hf

theorem metaIds_filter_nodup {bs : List BoardMeta} {q : BoardMeta → Bool}
    (h : (metaIds bs).Nodup) : (metaIds (bs.filter q)).Nodup := by
  have hsub : List.Sublist ((bs.filter q).map (fun b => b.id)) (bs.map (fun b => b.id)) :=
    (List.filter_sublist bs).map _
  exact h.sublist hsub

theorem keepEntry_eq_true {seen seenTrash : List String} {b : BoardMeta}
    (h1 : b.deletedAt = none → b.id ∈ seen)
    (h2 : b.deletedAt ≠ none → b.id ∈ seenTrash) :
    keepEntry seen seenTrash b = true := by
  unfold keepEntry
  cases hd : b.deletedAt with
  | none => simp [h1 hd]
  | some t =>
    have := h2 (by simp [hd])
    simp [this]

theorem of_keepEntry_true {seen seenTrash : List String} {b : BoardMeta}
    (h : keepEntry seen seenTrash b = true) :
    (b.deletedAt = none → b.id ∈ seen) ∧ (b.deletedAt ≠ none → b.id ∈ seenTrash) := by
  unfold keepEntry at h
  cases hd : b.deletedAt with
  | none =>
    rw [hd] at h
    refine ⟨fun _ => by simpa using h, fun hc => absurd rfl hc⟩
  | some t =>
    rw [hd] at h
    refine ⟨fun hc => Option.noConfusion hc, fun _ => by simpa using h⟩

theorem sync_nodup {fs : Fs} {idx : BoardIndex}
    (h1 : (metaIds idx.boards).Nodup) :
    (metaIds (sync_index_with_fs fs idx).1.boards).Nodup := by
  unfold sync_index_with_fs
  exact metaIds_filter_nodup (foldT_nodup (foldA_nodup h1))

theorem sync_consistent {fs : Fs} {idx : BoardIndex} :
    ∀ b ∈ (sync_index_with_fs fs idx).1.boards,
      (b.deletedAt = none → b.id ∈ vActiveIds fs) ∧
        (b.deletedAt ≠ none → b.id ∈ vTrashIds fs) := by
  intro b hb
  unfold sync_index_with_fs at hb
  simp only at hb
  rw [List.mem_filter] at hb
  exact of_keepEntry_true hb.2

theorem sync_active_cover {fs : Fs} {idx : BoardIndex}
    (hA : (vActiveIds fs).Nodup)
    (hdisj : ∀ x ∈ vActiveIds fs, x ∉ vTrashIds fs)
    {d : FsDir} (hd : d ∈ vActive fs)
    (hnone : ∀ b ∈ idx.boards, b.id = d.id → b.deletedAt = none) :
    ∃ e, (sync_index_with_fs fs idx).1.boards.find? (fun b => b.id == d.id) = some e ∧
      e.id = d.id ∧ e.name = readName d ∧ e.updatedAt = d.mtime ∧ e.deletedAt = none := by
  have hdid : d.id ∈ vActiveIds fs := List.mem_map_of_mem _ hd
  obtain ⟨e, hfind, hid, hn, hm, hdel⟩ :=
    @foldA_find_mem _ idx.boards false hA _ hd
  have hdelnone : e.deletedAt = none := by
    rcases hdel with h | ⟨b, hb, hbid, hbdel⟩
    · exact h
    · exact hbdel.trans (hnone b hb hbid)
  have hne : ∀ d' ∈ vTrash fs, d.id ≠ d'.id := by
    intro d' hd' he
    exact hdisj d.id hdid (he ▸ List.mem_map_of_mem _ hd')
  unfold sync_index_with_fs
  simp only
  rw [find?_filter]
  · exact ⟨e, rfl, hid, hn, hm, hdelnone⟩
  · rw [foldT_find_ne hne]
    exact hfind
  · exact keepEntry_eq_true (fun _ => hid ▸ hdid) (fun hc => absurd hdelnone (by
      intro h'; exact hc h'))

theorem sync_trash_cover {fs : Fs} {idx : BoardIndex}
    (hT : (vTrashIds fs).Nodup)
    {d : FsDir} (hd : d ∈ vTrash fs) :
    (sync_index_with_fs fs idx).1.boards.find? (fun b => b.id == d.id) =
      some ⟨d.id, readName d, d.mtime, some d.mtime⟩ := by
  have hdid : d.id ∈ vTrashIds fs := List.mem_map_of_mem _ hd
  unfold sync_index_with_fs
  simp only
  rw [find?_filter]
  · exact foldT_find_mem hT hd
  · exact keepEntry_eq_true (fun hc => by cases hc) (fun _ => hdid)

/-- The index entries exactly reflect the filesystem: every scanned
directory's first index entry carries its name and mtimes, and every
entry's claimed location is present on disk. -/
def Synced (fs : Fs) (bs : List BoardMeta) : Prop :=
  (∀ d ∈ vActive fs, ∃ e, bs.find? (fun b => b.id == d.id) = some e ∧
      e.name = readName d ∧ e.updatedAt = d.mtime) ∧
  (∀ d ∈ vTrash fs, bs.find? (fun b => b.id == d.id) =
      some ⟨d.id, readName d, d.mtime, some d.mtime⟩) ∧
  (∀ b ∈ bs, (b.deletedAt = none → b.id ∈ vActiveIds fs) ∧
      (b.deletedAt ≠ none → b.id ∈ vTrashIds fs))

theorem foldA_nochange {ds : List FsDir} {bs : List BoardMeta}
    (h : ∀ d ∈ ds, ∃ e, bs.find? (fun b => b.id == d.id) = some e ∧
      e.name = readName d ∧ e.updatedAt = d.mtime) :
    syncFold upsertActiveEntry ds (bs, false) = (bs, false) := by
  induction ds with
  | nil => rfl
  | cons d0 rest ih =>
    obtain ⟨e, hfind, hn, hm⟩ := h d0 (List.mem_cons_self _ _)
    rw [syncFold_cons, upsertActive_nochange hfind hn hm]
    exact ih (fun d hd => h d (List.mem_cons_of_mem _ hd))

theorem foldT_nochange {ds : List FsDir} {bs : List BoardMeta}
    (h : ∀ d ∈ ds, bs.find? (fun b => b.id == d.id) =
      some ⟨d.id, readName d, d.mtime, some d.mtime⟩) :
    syncFold upsertTrashEntry ds (bs, false) = (bs, false) := by
  induction ds with
  | nil => rfl
  | cons d0 rest ih =>
    rw [syncFold_cons, upsertTrash_nochange (h d0 (List.mem_cons_self _ _)) rfl rfl rfl]
    exact ih (fun d hd => h d (List.mem_cons_of_mem _ hd))

/-- A fully synced index is a fixed point: the reconcile pass changes
nothing and reports no change (hence performs no write). -/
theorem sync_fixpoint {fs : Fs} {idx : BoardIndex}
    (h : Synced fs idx.boards) :
    sync_index_with_fs fs idx = (idx, false) := by
  obtain ⟨hact, htr, hcons⟩ := h
  simp only [sync_index_with_fs]
  rw [foldA_nochange hact, foldT_nochange htr]
  have hfilter : idx.boards.filter (keepEntry (vActiveIds fs) (vTrashIds fs)) = idx.boards := by
    rw [List.filter_eq_self]
    intro b hb
    exact keepEntry_eq_true (hcons b hb).1 (hcons b hb).2
  simp [hfilter]

/-- After one reconcile pass against a well-formed filesystem whose
entries' locations are consistent, the index is fully synced. -/
theorem sync_establishes_synced {fs : Fs} {idx : BoardIndex}
    (hA : (vActiveIds fs).Nodup) (hT : (vTrashIds fs).Nodup)
    (hdisj : ∀ x ∈ vActiveIds fs, x ∉ vTrashIds fs)
    (hcons : ∀ b ∈ idx.boards, (b.deletedAt = none → b.id ∈ vActiveIds fs) ∧
      (b.deletedAt ≠ none → b.id ∈ vTrashIds fs)) :
    Synced fs (sync_index_with_fs fs idx).1.boards := by
  refine ⟨?_, ?_, sync_consistent⟩
  · intro d hd
    have hnone : ∀ b ∈ idx.boards, b.id = d.id → b.deletedAt = none := by
      intro b hb hbid
      cases hdel : b.deletedAt with
      | none => rfl
      | some t =>
        have := (hcons b hb).2 (by simp [hdel])
        exact absurd (hbid ▸ this) (hdisj d.id (List.mem_map_of_mem _ hd))
    obtain ⟨e, hfind, _, hn, hm, _⟩ := sync_active_cover hA hdisj hd hnone
    exact ⟨e, hfind, hn, hm⟩
  · intro d hd
    exact sync_trash_cover hT hd

/-- **C7.** For every index value and every filesystem state consistent
with it (a well-formed disk: no duplicate directory names, no id in both
the active and trash roots; and every entry's claimed location — active
versus trashed, per its `deletedAt` — actually present on disk), running
the reconcile pass twice with no filesystem change in between returns,
on the second run, an index identical to the first run's result together
with a clear `changed` flag — so the second run performs no write. -/
theorem C7_reconcile_idempotent (fs : Fs) (X : BoardIndex)
    (hA : (vActiveIds fs).Nodup) (hT : (vTrashIds fs).Nodup)
    (hdisj : ∀ x ∈ vActiveIds fs, x ∉ vTrashIds fs)
    (hcons : ∀ b ∈ X.boards, (b.deletedAt = none → b.id ∈ vActiveIds fs) ∧
      (b.deletedAt ≠ none → b.id ∈ vTrashIds fs)) :
    sync_index_with_fs fs (sync_index_with_fs fs X).1 =
      ((sync_index_with_fs fs X).1, false) :=
  sync_fixpoint (sync_establishes_synced hA hT hdisj hcons)

/-! ## The state invariant (claim C1) -/

theorem mem_activeIds_of_vActiveIds {fs : Fs} {x : String}
    (h : x ∈ vActiveIds fs) : x ∈ activeIds fs := by
  unfold vActiveIds vActive at h
  unfold activeIds
  simp only [List.mem_map] at h ⊢
  obtain ⟨d, hd, rfl⟩ := h
  exact ⟨d, (List.mem_filter.mp hd).1, rfl⟩

theorem mem_trashIds_of_vTrashIds {fs : Fs} {x : String}
    (h : x ∈ vTrashIds fs) : x ∈ trashIds fs := by
  unfold vTrashIds vTrash at h
  unfold trashIds
  simp only [List.mem_map] at h ⊢
  obtain ⟨d, hd, rfl⟩ := h
  exact ⟨d, (List.mem_filter.mp hd).1, rfl⟩

theorem valid_of_mem_vActiveIds {fs : Fs} {x : String}
    (h : x ∈ vActiveIds fs) : is_valid_board_id x = true := by
  unfold vActiveIds vActive at h
  simp only [List.mem_map] at h
  obtain ⟨d, hd, rfl⟩ := h
  exact by simpa using (List.mem_filter.mp hd).2

theorem valid_of_mem_vTrashIds {fs : Fs} {x : String}
    (h : x ∈ vTrashIds fs) : is_valid_board_id x = true := by
  unfold vTrashIds vTrash at h
  simp only [List.mem_map] at h
  obtain ⟨d, hd, rfl⟩ := h
  exact by simpa using (List.mem_filter.mp hd).2

theorem mem_vActive_of {fs : Fs} {d : FsDir} (hd : d ∈ fs.active)
    (hv : is_valid_board_id d.id = true) : d ∈ vActive fs :=
  List.mem_filter.mpr ⟨hd, by simpa using hv⟩

theorem mem_vTrash_of {fs : Fs} {d : FsDir} (hd : d ∈ fs.trash)
    (hv : is_valid_board_id d.id = true) : d ∈ vTrash fs :=
  List.mem_filter.mpr ⟨hd, by simpa using hv⟩

theorem vActiveIds_nodup {fs : Fs} (h : (activeIds fs).Nodup) :
    (vActiveIds fs).Nodup := by
  have hsub : List.Sublist (vActiveIds fs) (activeIds fs) :=
    (List.filter_sublist fs.active).map _
  exact h.sublist hsub

theorem vTrashIds_nodup {fs : Fs} (h : (trashIds fs).Nodup) :
    (vTrashIds fs).Nodup := by
  have hsub : List.Sublist (vTrashIds fs) (trashIds fs) :=
    (List.filter_sublist fs.trash).map _
  exact h.sublist hsub

/-- Filesystem well-formedness: directory names are unique under each
root, and no board id owns a directory in both roots. -/
def FsWf (fs : Fs) : Prop :=
  (activeIds fs).Nodup ∧ (trashIds fs).Nodup ∧
    (∀ x ∈ activeIds fs, x ∉ trashIds fs)

/-- The shape the reconciled/rebuilt index always has relative to the
filesystem it was computed from. -/
def GoodIdx (fs : Fs) (idx : BoardIndex) : Prop :=
  (metaIds idx.boards).Nodup ∧
  (∀ b ∈ idx.boards,
    (b.deletedAt = none → b.id ∈ vActiveIds fs) ∧
    (b.deletedAt ≠ none → b.id ∈ vTrashIds fs)) ∧
  (∀ d ∈ vActive fs, ∃ b ∈ idx.boards, b.id = d.id ∧ b.deletedAt = none) ∧
  (∀ d ∈ vTrash fs, ∃ b ∈ idx.boards, b.id = d.id ∧ b.deletedAt ≠ none)

/-- The inductive invariant of the create/delete/restore lifecycle. -/
def Inv (st : St) : Prop :=
  FsWf st.fs ∧
  (∀ d ∈ st.fs.trash, is_valid_board_id d.id = true) ∧
  (∀ d ∈ st.fs.active, d.id ≠ "trash" ∧ d.id ≠ "boards.json") ∧
  (∀ d ∈ st.fs.trash, d.id ≠ "trash" ∧ d.id ≠ "boards.json") ∧
  (metaIds st.index.boards).Nodup ∧
  (∀ b ∈ st.index.boards,
    (b.deletedAt = none → b.id ∈ activeIds st.fs) ∧
    (b.deletedAt ≠ none → is_valid_board_id b.id = true ∧ b.id ∈ trashIds st.fs)) ∧
  (∀ d ∈ vActive st.fs, ∃ b ∈ st.index.boards, b.id = d.id) ∧
  (∀ d ∈ st.fs.trash, ∃ b ∈ st.index.boards, b.id = d.id)

theorem rebuild_good {fs : Fs}
    (hA : (vActiveIds fs).Nodup) (hT : (vTrashIds fs).Nodup)
    (hdisj : ∀ x ∈ vActiveIds fs, x ∉ vTrashIds fs) :
    GoodIdx fs (rebuild_index_from_fs fs) := by
  have hidsA : metaIds ((vActive fs).map
      (fun d => (⟨d.id, readName d, d.mtime, none⟩ : BoardMeta))) = vActiveIds fs := by
    unfold metaIds vActiveIds
    rw [List.map_map]
    rfl
  have hidsT : metaIds ((vTrash fs).map
      (fun d => (⟨d.id, readName d, d.mtime, some d.mtime⟩ : BoardMeta))) = vTrashIds fs := by
    unfold metaIds vTrashIds
    rw [List.map_map]
    rfl
  refine ⟨?_, ?_, ?_, ?_⟩
  · unfold rebuild_index_from_fs
    simp only [metaIds_append]
    rw [hidsA, hidsT, List.nodup_append]
    exact ⟨hA, hT, hdisj⟩
  · intro b hb
    unfold rebuild_index_from_fs at hb
    simp only [List.mem_append, List.mem_map] at hb
    rcases hb with ⟨d, hd, rfl⟩ | ⟨d, hd, rfl⟩
    · exact ⟨fun _ => List.mem_map_of_mem _ hd, fun hc => absurd rfl hc⟩
    · exact ⟨fun hc => Option.noConfusion hc, fun _ => List.mem_map_of_mem _ hd⟩
  · intro d hd
    refine ⟨⟨d.id, readName d, d.mtime, none⟩, ?_, rfl, rfl⟩
    unfold rebuild_index_from_fs
    simp only [List.mem_append, List.mem_map]
    exact Or.inl ⟨d, hd, rfl⟩
  · intro d hd
    refine ⟨⟨d.id, readName d, d.mtime, some d.mtime⟩, ?_, rfl, by simp⟩
    unfold rebuild_index_from_fs
    simp only [List.mem_append, List.mem_map]
    exact Or.inr ⟨d, hd, rfl⟩

theorem read_index_good {st : St} (h : Inv st) : GoodIdx st.fs (read_index st) := by
  obtain ⟨⟨hAn, hTn, hdisj0⟩, htv, _, _, hidn, hloc, hcovA, hcovT⟩ := h
  have hA := vActiveIds_nodup hAn
  have hT := vTrashIds_nodup hTn
  have hdisj : ∀ x ∈ vActiveIds st.fs, x ∉ vTrashIds st.fs := by
    intro x hx hmem
    exact hdisj0 x (mem_activeIds_of_vActiveIds hx) (mem_trashIds_of_vTrashIds hmem)
  unfold read_index
  by_cases hemp : st.index.boards.isEmpty
  · rw [if_pos hemp]
    exact rebuild_good hA hT hdisj
  · rw [if_neg hemp]
    refine ⟨sync_nodup hidn, sync_consistent, ?_, ?_⟩
    · intro d hd
      have hnone : ∀ b ∈ st.index.boards, b.id = d.id → b.deletedAt = none := by
        intro b hb hbid
        cases hdel : b.deletedAt with
        | none => rfl
        | some t =>
          have hmem := ((hloc b hb).2 (by simp [hdel])).2
          have hact : d.id ∈ activeIds st.fs :=
            mem_activeIds_of_vActiveIds (List.mem_map_of_mem _ hd)
          exact absurd (hbid ▸ hmem) (hdisj0 d.id hact)
      obtain ⟨e, hfind, hid, _, _, hdel⟩ := sync_active_cover hA hdisj hd hnone
      exact ⟨e, List.mem_of_find?_eq_some hfind, hid, hdel⟩
    · intro d hd
      have := @sync_trash_cover _ st.index hT _ hd
      exact ⟨_, List.mem_of_find?_eq_some this, rfl, by simp⟩

theorem ensure_board_file_of_not_mem {fs : Fs} {id nm : String} {now : Int}
    (h : id ∉ activeIds fs) :
    ensure_board_file fs id nm now =
      ⟨fs.active ++ [⟨id, some (empty_board id nm), now⟩], fs.trash⟩ := by
  unfold ensure_board_file
  have hc : ((fs.active.map (fun d => d.id)).contains id) = false := by
    rw [← Bool.not_eq_true]
    intro hc
    apply h
    unfold activeIds
    simpa using hc
  rw [if_neg (by rw [hc]; simp)]

theorem ensure_board_file_of_mem {fs : Fs} {id nm : String} {now : Int}
    (h : id ∈ activeIds fs) : ensure_board_file fs id nm now = fs := by
  unfold ensure_board_file
  rw [if_pos]
  unfold activeIds at h
  simpa using h

theorem generate_fresh_parts {dirNames : List String} {index : BoardIndex} {now : Int} :
    (∀ b ∈ index.boards, b.id ≠ generate_board_id dirNames index now) ∧
      generate_board_id dirNames index now ∉ dirNames := by
  have hfresh := generate_board_id_fresh dirNames index now
  unfold idUsed at hfresh
  rw [Bool.or_eq_false_iff] at hfresh
  constructor
  · intro b hb he
    rw [List.any_eq_false] at hfresh
    have := hfresh.1 b hb
    simp [he] at this
  · intro hmem
    have := hfresh.2
    simp at this
    exact this hmem

theorem create_pres {st : St} (h : Inv st) (name : String) (now : Int) :
    Inv (create_board st name now).2 := by
  obtain ⟨hgn, hgloc, hgcovA, hgcovT⟩ := read_index_good h
  obtain ⟨⟨hAn, hTn, hdisj⟩, htv, hanames, htnames, _, hloc, _, _⟩ := h
  obtain ⟨hfidx, hfroot⟩ :=
    @generate_fresh_parts (rootNames st.fs) (read_index st) now
  set idx := read_index st with hidx
  set id := generate_board_id (rootNames st.fs) idx now with hid
  have hnotact : id ∉ activeIds st.fs := by
    intro hmem
    apply hfroot
    unfold rootNames
    exact List.mem_append_left _ hmem
  have hnottrash2 : id ≠ "trash" := by
    intro he
    apply hfroot
    unfold rootNames
    exact List.mem_append_right _ (by rw [he]; simp)
  have hnotbj : id ≠ "boards.json" := by
    intro he
    apply hfroot
    unfold rootNames
    exact List.mem_append_right _ (by rw [he]; simp)
  have hnottrash : id ∉ trashIds st.fs := by
    intro hmem
    unfold trashIds at hmem
    simp only [List.mem_map] at hmem
    obtain ⟨d, hd, hde⟩ := hmem
    have hdv : d ∈ vTrash st.fs := mem_vTrash_of hd (htv d hd)
    obtain ⟨b, hb, hbid, _⟩ := hgcovT d hdv
    exact hfidx b hb (hbid.trans hde)
  set safe := if name.trim.isEmpty then "Untitled" else name.trim with hsafe
  have hens := @ensure_board_file_of_not_mem st.fs _ safe now hnotact
  show Inv (create_board st name now).2
  unfold create_board
  simp only [← hidx, ← hid, ← hsafe, hens]
  constructor
  · -- FsWf
    refine ⟨?_, hTn, ?_⟩
    · show ((st.fs.active ++ [(⟨id, some (empty_board id safe), now⟩ : FsDir)]).map
        (fun d => d.id)).Nodup
      rw [List.map_append, List.nodup_append]
      refine ⟨hAn, by simp, ?_⟩
      intro a ha hb
      simp at hb
      exact hnotact (hb ▸ ha)
    · intro x hx
      show x ∉ trashIds st.fs
      have : x ∈ activeIds st.fs ∨ x = id := by
        unfold activeIds at hx ⊢
        simp only [List.map_append, List.mem_append] at hx
        rcases hx with hx | hx
        · exact Or.inl hx
        · simp at hx; exact Or.inr hx
      rcases this with hx' | rfl
      · exact hdisj x hx'
      · exact hnottrash
  refine ⟨htv, ?_, htnames, ?_, ?_, ?_, ?_⟩
  · -- active names
    intro d hd
    rcases List.mem_append.mp hd with hd' | hd'
    · exact hanames d hd'
    · rw [List.mem_singleton] at hd'
      subst hd'
      exact ⟨hnottrash2, hnotbj⟩
  · -- index nodup
    show (metaIds (idx.boards ++ [⟨id, safe, now, none⟩])).Nodup
    rw [metaIds_append, List.nodup_append]
    refine ⟨hgn, by simp, ?_⟩
    intro a ha hb
    simp only [metaIds_cons, metaIds_nil, List.mem_singleton] at hb
    rw [mem_metaIds] at ha
    obtain ⟨b, hbmem, hbid⟩ := ha
    exact hfidx b hbmem (hbid.trans hb)
  · -- entry locations
    intro b hb
    rcases List.mem_append.mp hb with hb' | hb'
    · refine ⟨?_, ?_⟩
      · intro hnone
        have := (hgloc b hb').1 hnone
        have hact := mem_activeIds_of_vActiveIds this
        show b.id ∈ (st.fs.active ++ [(⟨id, some (empty_board id safe), now⟩ : FsDir)]).map
          (fun d => d.id)
        rw [List.map_append]
        exact List.mem_append_left _ hact
      · intro hsome
        have := (hgloc b hb').2 hsome
        exact ⟨valid_of_mem_vTrashIds this, mem_trashIds_of_vTrashIds this⟩
    · rw [List.mem_singleton] at hb'
      subst hb'
      refine ⟨fun _ => ?_, fun hc => absurd rfl hc⟩
      show id ∈ (st.fs.active ++ [(⟨id, some (empty_board id safe), now⟩ : FsDir)]).map
        (fun d => d.id)
      rw [List.map_append]
      exact List.mem_append_right _ (by simp)
  · -- active coverage
    intro d hd
    have hd' : d ∈ (st.fs.active ++ [(⟨id, some (empty_board id safe), now⟩ : FsDir)]).filter
      (fun d => is_valid_board_id d.id) := hd
    rw [List.filter_append] at hd'
    rcases List.mem_append.mp hd' with hd'' | hd''
    · obtain ⟨b, hb, hbid, _⟩ := hgcovA d hd''
      exact ⟨b, List.mem_append_left _ hb, hbid⟩
    · have : d ∈ [(⟨id, some (empty_board id safe), now⟩ : FsDir)] :=
        List.mem_of_mem_filter hd''
      rw [List.mem_singleton] at this
      subst this
      exact ⟨⟨id, safe, now, none⟩, List.mem_append_right _ (by simp), rfl⟩
  · -- trash coverage
    intro d hd
    have hdv : d ∈ vTrash st.fs := mem_vTrash_of hd (htv d hd)
    obtain ⟨b, hb, hbid, _⟩ := hgcovT d hdv
    exact ⟨b, List.mem_append_left _ hb, hbid⟩

theorem markDeleted_id_deleted {id : String} {now : Int} {bs : List BoardMeta}
    (hnd : (metaIds bs).Nodup) :
    ∀ b' ∈ markDeleted id now bs, b'.id = id → b'.deletedAt = some now := by
  induction bs with
  | nil => intro b' hb'; cases hb'
  | cons b0 rest ih =>
    intro b' hb' hid
    simp only [markDeleted] at hb'
    rw [metaIds_cons, List.nodup_cons] at hnd
    by_cases h0 : b0.id = id
    · rw [if_pos h0] at hb'
      rcases List.mem_cons.mp hb' with rfl | hmem
      · rfl
      · exfalso
        apply hnd.1
        rw [h0, ← hid]
        exact mem_metaIds.mpr ⟨b', hmem, rfl⟩
    · rw [if_neg h0] at hb'
      rcases List.mem_cons.mp hb' with rfl | hmem
      · exact absurd hid h0
      · exact ih hnd.2 b' hmem hid

theorem Inv_mk_of_GoodIdx {fs : Fs} {idx : BoardIndex}
    (hwf : FsWf fs)
    (htv : ∀ d ∈ fs.trash, is_valid_board_id d.id = true)
    (han : ∀ d ∈ fs.active, d.id ≠ "trash" ∧ d.id ≠ "boards.json")
    (htn : ∀ d ∈ fs.trash, d.id ≠ "trash" ∧ d.id ≠ "boards.json")
    (hg : GoodIdx fs idx) : Inv ⟨fs, idx⟩ := by
  obtain ⟨hgn, hgloc, hgcovA, hgcovT⟩ := hg
  refine ⟨hwf, htv, han, htn, hgn, ?_, ?_, ?_⟩
  · intro b hb
    refine ⟨fun hnone => mem_activeIds_of_vActiveIds ((hgloc b hb).1 hnone),
      fun hsome => ⟨valid_of_mem_vTrashIds ((hgloc b hb).2 hsome),
        mem_trashIds_of_vTrashIds ((hgloc b hb).2 hsome)⟩⟩
  · intro d hd
    obtain ⟨b, hb, hbid, _⟩ := hgcovA d hd
    exact ⟨b, hb, hbid⟩
  · intro d hd
    obtain ⟨b, hb, hbid, _⟩ := hgcovT d (mem_vTrash_of hd (htv d hd))
    exact ⟨b, hb, hbid⟩

theorem delete_pres {st : St} (h : Inv st) (id : String) (now : Int) :
    Inv (delete_board st id now).2 := by
  by_cases hv : is_valid_board_id id = false
  · unfold delete_board
    rw [if_pos hv]
    exact h
  · have hval : is_valid_board_id id = true := by
      cases hvb : is_valid_board_id id
      · exact absurd hvb hv
      · rfl
    obtain ⟨hgn, hgloc, hgcovA, hgcovT⟩ := read_index_good h
    obtain ⟨⟨hAn, hTn, hdisj⟩, htv, hanames, htnames, _, _, _, _⟩ := h
    unfold delete_board
    rw [if_neg hv]
    simp only
    set idx := read_index st with hidxeq
    by_cases hfound : idx.boards.any (fun b => b.id == id) = true
    · rw [if_pos hfound]
      have hexists : ∃ b ∈ idx.boards, b.id = id := by
        rw [List.any_eq_true] at hfound
        obtain ⟨b, hb, hbid⟩ := hfound
        exact ⟨b, hb, by simpa using hbid⟩
      have hmark := @markDeleted_id_deleted id now idx.boards hgn
      by_cases hact : id ∈ activeIds st.fs
      · -- the active directory exists and is moved into the trash area
        rw [if_pos (by unfold activeIds at hact; simpa using hact)]
        simp only
        constructor
        · -- FsWf
          refine ⟨?_, ?_, ?_⟩
          · exact hAn.sublist ((List.filter_sublist _).map _)
          · show ((st.fs.trash.filter (fun d => d.id ≠ id)
                ++ st.fs.active.filter (fun d => d.id = id)).map (fun d => d.id)).Nodup
            rw [List.map_append, List.nodup_append]
            refine ⟨hTn.sublist ((List.filter_sublist _).map _),
              hAn.sublist ((List.filter_sublist _).map _), ?_⟩
            intro a ha hb
            simp only [List.mem_map, List.mem_filter, decide_eq_true_eq] at ha hb
            obtain ⟨t, ⟨_, htne⟩, rfl⟩ := ha
            obtain ⟨u, ⟨_, hue⟩, hueq⟩ := hb
            exact htne (by rw [hueq] at hue; exact hue)
          · intro x hx
            simp only [activeIds, List.mem_map, List.mem_filter, decide_eq_true_eq] at hx
            obtain ⟨d, ⟨hdmem, hdne⟩, rfl⟩ := hx
            intro hmem
            simp only [trashIds, List.map_append, List.mem_append, List.mem_map,
              List.mem_filter, decide_eq_true_eq] at hmem
            rcases hmem with ⟨t, ⟨htmem, _⟩, hteq⟩ | ⟨u, ⟨humem, hue⟩, hueq⟩
            · exact hdisj d.id (List.mem_map_of_mem _ hdmem)
                (hteq ▸ List.mem_map_of_mem _ htmem)
            · exact hdne (by rw [hueq] at hue; exact hue)
        refine ⟨?_, ?_, ?_, ?_, ?_, ?_, ?_⟩
        · -- trash validity
          intro d hd
          rcases List.mem_append.mp hd with hd' | hd'
          · exact htv d (List.mem_of_mem_filter hd')
          · have := (List.mem_filter.mp hd').2
            simp only [decide_eq_true_eq] at this
            exact this ▸ hval
        · -- active names
          intro d hd
          exact hanames d (List.mem_of_mem_filter hd)
        · -- trash names
          intro d hd
          rcases List.mem_append.mp hd with hd' | hd'
          · exact htnames d (List.mem_of_mem_filter hd')
          · exact hanames d (List.mem_of_mem_filter hd')
        · -- index nodup
          show (metaIds (markDeleted id now idx.boards)).Nodup
          rw [markDeleted_ids]
          exact hgn
        · -- entry locations
          intro b hb
          rcases markDeleted_origin b hb with hmem | ⟨hbid, hbdel⟩
          · constructor
            · intro hnone
              have hvA := (hgloc b hmem).1 hnone
              have hbne : b.id ≠ id := by
                intro he
                have := hmark b hb he
                rw [this] at hnone
                cases hnone
              show b.id ∈ (st.fs.active.filter (fun d => d.id ≠ id)).map (fun d => d.id)
              have hbact : b.id ∈ activeIds st.fs := mem_activeIds_of_vActiveIds hvA
              simp only [activeIds, List.mem_map] at hbact
              obtain ⟨d, hdmem, hdeq⟩ := hbact
              simp only [List.mem_map, List.mem_filter, decide_eq_true_eq]
              exact ⟨d, ⟨hdmem, by rw [hdeq]; exact hbne⟩, hdeq⟩
            · intro hsome
              have hvT := (hgloc b hmem).2 hsome
              have hbne : b.id ≠ id := by
                intro he
                exact hdisj id hact (he ▸ mem_trashIds_of_vTrashIds hvT)
              refine ⟨valid_of_mem_vTrashIds hvT, ?_⟩
              show b.id ∈ (st.fs.trash.filter (fun d => d.id ≠ id)
                ++ st.fs.active.filter (fun d => d.id = id)).map (fun d => d.id)
              have hbtr : b.id ∈ trashIds st.fs := mem_trashIds_of_vTrashIds hvT
              simp only [trashIds, List.mem_map] at hbtr
              obtain ⟨t, htmem, hteq⟩ := hbtr
              rw [List.map_append]
              apply List.mem_append_left
              simp only [List.mem_map, List.mem_filter, decide_eq_true_eq]
              exact ⟨t, ⟨htmem, by rw [hteq]; exact hbne⟩, hteq⟩
          · constructor
            · intro hnone
              rw [hbdel] at hnone
              cases hnone
            · intro _
              refine ⟨hbid ▸ hval, ?_⟩
              show b.id ∈ (st.fs.trash.filter (fun d => d.id ≠ id)
                ++ st.fs.active.filter (fun d => d.id = id)).map (fun d => d.id)
              simp only [activeIds, List.mem_map] at hact
              obtain ⟨d, hdmem, hdeq⟩ := hact
              rw [List.map_append]
              apply List.mem_append_right
              simp only [List.mem_map, List.mem_filter, decide_eq_true_eq]
              exact ⟨d, ⟨hdmem, hdeq⟩, hdeq.trans hbid.symm⟩
        · -- active coverage
          intro d hd
          have hd1 : d ∈ st.fs.active.filter (fun d => d.id ≠ id) :=
            List.mem_of_mem_filter hd
          have hdvalid : is_valid_board_id d.id = true := by
            simpa using (List.mem_filter.mp hd).2
          have hdne : d.id ≠ id := by
            simpa using (List.mem_filter.mp hd1).2
          have hdmem : d ∈ st.fs.active := List.mem_of_mem_filter hd1
          obtain ⟨b, hb, hbid, _⟩ := hgcovA d (mem_vActive_of hdmem hdvalid)
          exact ⟨b, markDeleted_mem_ne hb (by rw [hbid]; exact hdne), hbid⟩
        · -- trash coverage
          intro d hd
          rcases List.mem_append.mp hd with hd' | hd'
          · have hdne : d.id ≠ id := by
              simpa using (List.mem_filter.mp hd').2
            have hdmem : d ∈ st.fs.trash := List.mem_of_mem_filter hd'
            obtain ⟨b, hb, hbid, _⟩ := hgcovT d (mem_vTrash_of hdmem (htv d hdmem))
            exact ⟨b, markDeleted_mem_ne hb (by rw [hbid]; exact hdne), hbid⟩
          · have hdeq : d.id = id := by
              simpa using (List.mem_filter.mp hd').2
            obtain ⟨b', hb', hbid', _⟩ := markDeleted_exists hexists
            exact ⟨b', hb', hbid'.trans hdeq.symm⟩
      · -- no active directory: only the index entry is re-marked
        rw [if_neg (by
          intro hc
          apply hact
          unfold activeIds
          simpa using hc)]
        simp only
        obtain ⟨b0, hb0, hb0id⟩ := hexists
        have hb0some : b0.deletedAt ≠ none := by
          intro hnone
          have := (hgloc b0 hb0).1 hnone
          exact hact (hb0id ▸ mem_activeIds_of_vActiveIds this)
        have hidtr : id ∈ trashIds st.fs :=
          hb0id ▸ mem_trashIds_of_vTrashIds ((hgloc b0 hb0).2 hb0some)
        refine ⟨⟨hAn, hTn, hdisj⟩, htv, hanames, htnames, ?_, ?_, ?_, ?_⟩
        · show (metaIds (markDeleted id now idx.boards)).Nodup
          rw [markDeleted_ids]
          exact hgn
        · intro b hb
          rcases markDeleted_origin b hb with hmem | ⟨hbid, hbdel⟩
          · exact ⟨fun hnone => mem_activeIds_of_vActiveIds ((hgloc b hmem).1 hnone),
              fun hsome => ⟨valid_of_mem_vTrashIds ((hgloc b hmem).2 hsome),
                mem_trashIds_of_vTrashIds ((hgloc b hmem).2 hsome)⟩⟩
          · refine ⟨fun hnone => ?_, fun _ => ⟨hbid ▸ hval, hbid ▸ hidtr⟩⟩
            rw [hbdel] at hnone
            cases hnone
        · intro d hd
          obtain ⟨b, hb, hbid, _⟩ := hgcovA d hd
          have hdne : d.id ≠ id := by
            intro he
            have : d ∈ st.fs.active := List.mem_of_mem_filter hd
            exact hact (he ▸ List.mem_map_of_mem _ this)
          exact ⟨b, markDeleted_mem_ne hb (by rw [hbid]; exact hdne), hbid⟩
        · intro d hd
          obtain ⟨b, hb, hbid, _⟩ := hgcovT d (mem_vTrash_of hd (htv d hd))
          by_cases hdeq : d.id = id
          · obtain ⟨b', hb', hbid', _⟩ := markDeleted_exists ⟨b0, hb0, hb0id⟩
            exact ⟨b', hb', hbid'.trans hdeq.symm⟩
          · exact ⟨b, markDeleted_mem_ne hb (by rw [hbid]; exact hdeq), hbid⟩
    · -- no index entry at all: `NotFound`, but the reconciled index was stored
      rw [if_neg hfound]
      exact Inv_mk_of_GoodIdx ⟨hAn, hTn, hdisj⟩ htv hanames htnames
        ⟨hgn, hgloc, hgcovA, hgcovT⟩

theorem restore_pres {st : St} (h : Inv st) (id : String) (now : Int) :
    Inv (restore_board st id now).2 := by
  by_cases hv : is_valid_board_id id = false
  · unfold restore_board
    rw [if_pos hv]
    exact h
  · have hInv := h
    obtain ⟨⟨hAn, hTn, hdisj⟩, htv, hanames, htnames, hidn0, hloc0, _, _⟩ := h
    unfold restore_board
    rw [if_neg hv]
    by_cases htr : id ∈ trashIds st.fs
    swap
    · rw [if_pos (by
        rw [← Bool.not_eq_true]
        intro hc
        apply htr
        unfold trashIds
        simpa using hc)]
      exact hInv
    by_cases hac : id ∈ activeIds st.fs
    · rw [if_neg (by
        rw [Bool.not_eq_false]
        unfold trashIds at htr
        simpa using htr), if_pos (by unfold activeIds at hac; simpa using hac)]
      exact hInv
    rw [if_neg (by
        rw [Bool.not_eq_false]
        unfold trashIds at htr
        simpa using htr), if_neg (by
        intro hc
        apply hac
        unfold activeIds
        simpa using hc)]
    simp only
    set moved := st.fs.trash.filter (fun d => d.id = id) with hmoved
    set fs1 : Fs := ⟨st.fs.active ++ moved, st.fs.trash.filter (fun d => d.id ≠ id)⟩
      with hfs1
    have hmoved_ids : ∀ d ∈ moved, d.id = id := by
      intro d hd
      simpa using (List.mem_filter.mp hd).2
    have hmoved_sub : ∀ d ∈ moved, d ∈ st.fs.trash :=
      fun d hd => List.mem_of_mem_filter hd
    have hmoved_ne : moved ≠ [] := by
      unfold trashIds at htr
      simp only [List.mem_map] at htr
      obtain ⟨t, htmem, hteq⟩ := htr
      intro hnil
      have : t ∈ moved := List.mem_filter.mpr ⟨htmem, by simpa using hteq⟩
      rw [hnil] at this
      cases this
    have hA1 : (activeIds fs1).Nodup := by
      show ((st.fs.active ++ moved).map (fun d => d.id)).Nodup
      rw [List.map_append, List.nodup_append]
      refine ⟨hAn, hTn.sublist ((List.filter_sublist _).map _), ?_⟩
      intro a ha hb
      simp only [List.mem_map] at ha hb
      obtain ⟨u, humem, hueq⟩ := hb
      obtain ⟨w, hwmem, hweq⟩ := ha
      apply hac
      unfold activeIds
      simp only [List.mem_map]
      exact ⟨w, hwmem, hweq.trans (hueq.symm.trans (hmoved_ids u humem))⟩
    have hT1 : (trashIds fs1).Nodup := hTn.sublist ((List.filter_sublist _).map _)
    have hdisj1 : ∀ x ∈ activeIds fs1, x ∉ trashIds fs1 := by
      intro x hx hmem
      simp only [trashIds, List.mem_map, List.mem_filter, decide_eq_true_eq] at hmem
      obtain ⟨t, ⟨htmem, htne⟩, hteq⟩ := hmem
      simp only [activeIds, List.map_append, List.mem_append, List.mem_map] at hx
      rcases hx with ⟨u, humem, hueq⟩ | ⟨u, humem, hueq⟩
      · exact hdisj x (hueq ▸ List.mem_map_of_mem _ humem)
          (hteq ▸ List.mem_map_of_mem _ htmem)
      · exact htne (hteq.trans (hueq.symm.trans (hmoved_ids u humem)))
    have htv1 : ∀ d ∈ fs1.trash, is_valid_board_id d.id = true :=
      fun d hd => htv d (List.mem_of_mem_filter hd)
    have han1 : ∀ d ∈ fs1.active, d.id ≠ "trash" ∧ d.id ≠ "boards.json" := by
      intro d hd
      rcases List.mem_append.mp hd with hd' | hd'
      · exact hanames d hd'
      · exact htnames d (hmoved_sub d hd')
    have htn1 : ∀ d ∈ fs1.trash, d.id ≠ "trash" ∧ d.id ≠ "boards.json" :=
      fun d hd => htnames d (List.mem_of_mem_filter hd)
    have hvA1 := vActiveIds_nodup hA1
    have hvT1 := vTrashIds_nodup hT1
    have hvdisj1 : ∀ x ∈ vActiveIds fs1, x ∉ vTrashIds fs1 := by
      intro x hx hmem
      exact hdisj1 x (mem_activeIds_of_vActiveIds hx) (mem_trashIds_of_vTrashIds hmem)
    have hidact1 : id ∈ activeIds fs1 := by
      cases hm : moved with
      | nil => exact absurd hm hmoved_ne
      | cons d rest =>
        have hd : d ∈ moved := by rw [hm]; exact List.mem_cons_self _ _
        show id ∈ (st.fs.active ++ moved).map (fun d => d.id)
        rw [List.map_append]
        exact List.mem_append_right _ ((hmoved_ids d hd) ▸ List.mem_map_of_mem _ hd)
    set idx1 := read_index ⟨fs1, st.index⟩ with hidx1
    have hprops : (metaIds idx1.boards).Nodup ∧
        (∀ b ∈ idx1.boards, (b.deletedAt = none → b.id ∈ vActiveIds fs1) ∧
          (b.deletedAt ≠ none → b.id ∈ vTrashIds fs1)) ∧
        (∀ d ∈ vActive fs1, d.id ≠ id → ∃ b ∈ idx1.boards, b.id = d.id) ∧
        (∀ d ∈ vTrash fs1, ∃ b ∈ idx1.boards, b.id = d.id) := by
      rw [hidx1]
      unfold read_index
      dsimp only
      by_cases hemp : st.index.boards.isEmpty
      · rw [if_pos hemp]
        obtain ⟨hn, hc, hca, hct⟩ := @rebuild_good fs1 hvA1 hvT1 hvdisj1
        exact ⟨hn, hc, fun d hd _ => (hca d hd).imp (fun b hb => ⟨hb.1, hb.2.1⟩),
          fun d hd => (hct d hd).imp (fun b hb => ⟨hb.1, hb.2.1⟩)⟩
      · rw [if_neg hemp]
        refine ⟨sync_nodup hidn0, sync_consistent, ?_, ?_⟩
        · intro d hd hdne
          have hnone : ∀ b ∈ st.index.boards, b.id = d.id → b.deletedAt = none := by
            intro b hb hbid
            cases hdel : b.deletedAt with
            | none => rfl
            | some t =>
              exfalso
              have hmem := ((hloc0 b hb).2 (by simp [hdel])).2
              have hd' : d ∈ st.fs.active ++ moved := List.mem_of_mem_filter hd
              rcases List.mem_append.mp hd' with hd'' | hd''
              · exact hdisj d.id (List.mem_map_of_mem _ hd'') (hbid ▸ hmem)
              · exact hdne (hmoved_ids d hd'')
          obtain ⟨e, hfind, hid, _, _, _⟩ :=
            @sync_active_cover _ st.index hvA1 hvdisj1 _ hd hnone
          exact ⟨e, List.mem_of_find?_eq_some hfind, hid⟩
        · intro d hd
          have := @sync_trash_cover _ st.index hvT1 _ hd
          exact ⟨_, List.mem_of_find?_eq_some this, rfl⟩
    obtain ⟨hn1, hc1, hca1, hct1⟩ := hprops
    refine ⟨⟨hA1, hT1, hdisj1⟩, htv1, han1, htn1, ?_, ?_, ?_, ?_⟩
    · show (metaIds (upsertMeta id _ now idx1.boards)).Nodup
      by_cases hidm : id ∈ metaIds idx1.boards
      · rw [upsertMeta_ids_of_mem hidm]
        exact hn1
      · rw [upsertMeta_of_not_mem hidm, metaIds_append, List.nodup_append]
        refine ⟨hn1, by simp, ?_⟩
        intro a ha hb
        simp only [metaIds_cons, metaIds_nil, List.mem_singleton] at hb
        exact hidm (hb ▸ ha)
    · intro b hb
      rcases upsertMeta_origin b hb with hmem | ⟨hbid, _, _, hbdel⟩
      · refine ⟨fun hnone => mem_activeIds_of_vActiveIds ((hc1 b hmem).1 hnone),
          fun hsome => ⟨valid_of_mem_vTrashIds ((hc1 b hmem).2 hsome),
            mem_trashIds_of_vTrashIds ((hc1 b hmem).2 hsome)⟩⟩
      · exact ⟨fun _ => hbid ▸ hidact1, fun hc => absurd hbdel hc⟩
    · intro d hd
      by_cases hdeq : d.id = id
      · exact upsertMeta_exists.imp (fun b' hb' => ⟨hb'.1, hb'.2.1.trans hdeq.symm⟩)
      · obtain ⟨b, hb, hbid⟩ := hca1 d hd hdeq
        exact ⟨b, upsertMeta_mem_ne hb (by rw [hbid]; exact hdeq), hbid⟩
    · intro d hd
      have hdv : d ∈ vTrash fs1 := mem_vTrash_of hd (htv1 d hd)
      obtain ⟨b, hb, hbid⟩ := hct1 d hdv
      have hdne : d.id ≠ id := by
        simpa using (List.mem_filter.mp hd).2
      exact ⟨b, upsertMeta_mem_ne hb (by rw [hbid]; exact hdne), hbid⟩

theorem step_pres {st : St} (h : Inv st) (op : Cmd × Int) : Inv (step st op) := by
  rcases op with ⟨cmd, now⟩
  cases cmd with
  | create name => exact create_pres h name now
  | delete id => exact delete_pres h id now
  | restore id => exact restore_pres h id now

theorem run_pres {st : St} (h : Inv st) (ops : List (Cmd × Int)) : Inv (run st ops) := by
  induction ops generalizing st with
  | nil => exact h
  | cons op rest ih => exact ih (step_pres h op)

/-- The property claim C1 states of a reachable state: every board id owns
a directory in at most one of the two roots, and every board id (an
identifier the code's validator accepts, the code's own criterion for a
directory being a board directory) with a directory on disk has exactly
one index entry, whose `deletedAt` is absent exactly when the directory
is in the active root and present exactly when it is in the trash root. -/
def LifecycleInvariant (st : St) : Prop :=
  (∀ d ∈ st.fs.active, d.id ∉ trashIds st.fs) ∧
  (∀ d ∈ st.fs.active, is_valid_board_id d.id = true →
    st.index.boards.countP (fun b => b.id == d.id) = 1 ∧
    ∀ b ∈ st.index.boards, b.id = d.id → b.deletedAt = none) ∧
  (∀ d ∈ st.fs.trash, is_valid_board_id d.id = true →
    st.index.boards.countP (fun b => b.id == d.id) = 1 ∧
    ∀ b ∈ st.index.boards, b.id = d.id → b.deletedAt ≠ none)

theorem countP_id_eq_one {bs : List BoardMeta} {i : String}
    (hnd : (metaIds bs).Nodup) (hmem : ∃ b ∈ bs, b.id = i) :
    bs.countP (fun b => b.id == i) = 1 := by
  have h1 : bs.countP (fun b => b.id == i) = (metaIds bs).count i := by
    unfold metaIds
    rw [List.count, List.countP_map]
    rfl
  rw [h1]
  obtain ⟨b, hb, hbid⟩ := hmem
  exact List.count_eq_one_of_mem hnd (hbid ▸ List.mem_map_of_mem _ hb)

theorem Inv_implies_lifecycle {st : St} (h : Inv st) : LifecycleInvariant st := by
  obtain ⟨⟨hAn, hTn, hdisj⟩, htv, _, _, hidn, hloc, hcovA, hcovT⟩ := h
  refine ⟨?_, ?_, ?_⟩
  · intro d hd
    exact hdisj d.id (List.mem_map_of_mem _ hd)
  · intro d hd hval
    obtain ⟨b0, hb0, hb0id⟩ := hcovA d (mem_vActive_of hd hval)
    refine ⟨countP_id_eq_one hidn ⟨b0, hb0, hb0id⟩, ?_⟩
    intro b hb hbid
    cases hdel : b.deletedAt with
    | none => rfl
    | some t =>
      exfalso
      have := ((hloc b hb).2 (by simp [hdel])).2
      exact hdisj d.id (List.mem_map_of_mem _ hd) (hbid ▸ this)
  · intro d hd hval
    obtain ⟨b0, hb0, hb0id⟩ := hcovT d hd
    refine ⟨countP_id_eq_one hidn ⟨b0, hb0, hb0id⟩, ?_⟩
    intro b hb hbid hnone
    have := (hloc b hb).1 hnone
    exact hdisj d.id (hbid ▸ this) (List.mem_map_of_mem _ hd)

/-- **C1.** Starting from any consistent state (the `Inv` conjunction: a
well-formed filesystem and an index whose entries match directory
locations, one entry per board directory), after any finite sequence of
`create_board`/`delete_board`/`restore_board` operations every board id
has its directory in at most one of the active root and the trash root,
and the index holds exactly one entry per board id owning a directory,
with `deletedAt` present exactly for the trashed location.  (A "board
id" is an identifier accepted by `is_valid_board_id`, the criterion the
code itself uses to recognise board directories.) -/
theorem C1_lifecycle_invariant (st0 : St) (ops : List (Cmd × Int)) (h : Inv st0) :
    LifecycleInvariant (run st0 ops) :=
  Inv_implies_lifecycle (run_pres h ops)

/-- Witness for C1: the empty state is consistent, and a concrete
create–delete–restore run keeps the invariant. -/
theorem C1_lifecycle_invariant_witness :
    Inv ⟨⟨[], []⟩, ⟨1, []⟩⟩ ∧
      LifecycleInvariant (run ⟨⟨[], []⟩, ⟨1, []⟩⟩
        [(Cmd.create "Trip", 5), (Cmd.delete "board-5", 6), (Cmd.restore "board-5", 7)]) :=
  ⟨by unfold Inv FsWf; decide, C1_lifecycle_invariant ⟨⟨[], []⟩, ⟨1, []⟩⟩
    [(Cmd.create "Trip", 5), (Cmd.delete "board-5", 6), (Cmd.restore "board-5", 7)]
    (by unfold Inv FsWf; decide)⟩

/-- Witness for C7 at a concrete one-board filesystem and matching index. -/
theorem C7_reconcile_idempotent_witness :
    ((vActiveIds ⟨[⟨"b1", some ⟨"b1", "N", [], []⟩, 5⟩], []⟩).Nodup ∧
      (vTrashIds ⟨[⟨"b1", some ⟨"b1", "N", [], []⟩, 5⟩], []⟩).Nodup ∧
      (∀ x ∈ vActiveIds ⟨[⟨"b1", some ⟨"b1", "N", [], []⟩, 5⟩], []⟩,
        x ∉ vTrashIds ⟨[⟨"b1", some ⟨"b1", "N", [], []⟩, 5⟩], []⟩) ∧
      (∀ b ∈ (⟨1, [⟨"b1", "N", 5, none⟩]⟩ : BoardIndex).boards,
        (b.deletedAt = none →
          b.id ∈ vActiveIds ⟨[⟨"b1", some ⟨"b1", "N", [], []⟩, 5⟩], []⟩) ∧
        (b.deletedAt ≠ none →
          b.id ∈ vTrashIds ⟨[⟨"b1", some ⟨"b1", "N", [], []⟩, 5⟩], []⟩))) ∧
    sync_index_with_fs ⟨[⟨"b1", some ⟨"b1", "N", [], []⟩, 5⟩], []⟩
        (sync_index_with_fs ⟨[⟨"b1", some ⟨"b1", "N", [], []⟩, 5⟩], []⟩
          ⟨1, [⟨"b1", "N", 5, none⟩]⟩).1 =
      ((sync_index_with_fs ⟨[⟨"b1", some ⟨"b1", "N", [], []⟩, 5⟩], []⟩
        ⟨1, [⟨"b1", "N", 5, none⟩]⟩).1, false) :=
  ⟨⟨by decide, by decide, by decide, by decide⟩,
    C7_reconcile_idempotent ⟨[⟨"b1", some ⟨"b1", "N", [], []⟩, 5⟩], []⟩
      ⟨1, [⟨"b1", "N", 5, none⟩]⟩ (by decide) (by decide) (by decide) (by decide)⟩

/-! ## Claims about `delete_board` (C2), `save_board` (C9, C6) and
`create_board` (C10) -/

theorem find?_eq_none_of_all_ne {bs : List BoardMeta} {id : String}
    (h : ∀ b ∈ bs, b.id ≠ id) : bs.find? (fun b => b.id == id) = none := by
  rw [List.find?_eq_none]
  intro b hb
  simp [h b hb]

/-- **C2 (corrected).** `delete_board` on a valid id: it returns
`NotFound` exactly when the reconciled index has no entry for the id at
all.  When an entry exists the call succeeds — *even when that entry is
already marked deleted*, contrary to the original claim — stamping the
entry's `deletedAt` with the current time; when the id's directory is in
the active root it is moved to the trash root. -/
theorem C2_delete_board_corrected (st : St) (id : String) (now : Int)
    (hval : is_valid_board_id id = true) :
    ((∀ b ∈ (read_index st).boards, b.id ≠ id) →
      delete_board st id now = (.error "board not found", ⟨st.fs, read_index st⟩)) ∧
    ((∃ b ∈ (read_index st).boards, b.id = id) →
      (delete_board st id now).1 = .ok () ∧
      (∃ b' ∈ (delete_board st id now).2.index.boards,
        b'.id = id ∧ b'.deletedAt = some now) ∧
      (id ∈ activeIds st.fs →
        id ∈ trashIds (delete_board st id now).2.fs ∧
        id ∉ activeIds (delete_board st id now).2.fs)) := by
  have hv : ¬ is_valid_board_id id = false := by simp [hval]
  constructor
  · intro hnone
    unfold delete_board
    rw [if_neg hv]
    simp only
    rw [if_neg (by
      rw [List.any_eq_true]
      rintro ⟨b, hb, hbid⟩
      exact hnone b hb (by simpa using hbid))]
  · rintro ⟨b0, hb0, hb0id⟩
    have hfound : ((read_index st).boards.any (fun b => b.id == id)) = true := by
      rw [List.any_eq_true]
      exact ⟨b0, hb0, by simpa using hb0id⟩
    unfold delete_board
    rw [if_neg hv]
    simp only
    rw [if_pos hfound]
    by_cases hact : id ∈ activeIds st.fs
    · rw [if_pos (by unfold activeIds at hact; simpa using hact)]
      refine ⟨rfl, ?_, ?_⟩
      · exact markDeleted_exists ⟨b0, hb0, hb0id⟩
      · intro _
        constructor
        · show id ∈ (st.fs.trash.filter (fun d => d.id ≠ id)
            ++ st.fs.active.filter (fun d => d.id = id)).map (fun d => d.id)
          simp only [activeIds, List.mem_map] at hact
          obtain ⟨d, hdmem, hdeq⟩ := hact
          rw [List.map_append]
          exact List.mem_append_right _ (by
            simp only [List.mem_map, List.mem_filter, decide_eq_true_eq]
            exact ⟨d, ⟨hdmem, hdeq⟩, hdeq⟩)
        · intro hmem
          simp only [activeIds, List.mem_map, List.mem_filter, decide_eq_true_eq] at hmem
          obtain ⟨d, ⟨_, hdne⟩, hdeq⟩ := hmem
          exact hdne hdeq
    · rw [if_neg (by
        intro hc
        apply hact
        unfold activeIds
        simpa using hc)]
      refine ⟨rfl, markDeleted_exists ⟨b0, hb0, hb0id⟩, fun hc => absurd hc hact⟩

/-- Witness for the corrected C2 at a concrete state: one already-deleted
entry whose directory sits in the trash. -/
theorem C2_delete_board_corrected_witness :
    is_valid_board_id "board-1" = true ∧
    (∃ b ∈ (read_index ⟨⟨[], [⟨"board-1", some ⟨"board-1", "N", [], []⟩, 5⟩]⟩,
        ⟨1, [⟨"board-1", "N", 5, some 5⟩]⟩⟩).boards, b.id = "board-1") ∧
    ((delete_board ⟨⟨[], [⟨"board-1", some ⟨"board-1", "N", [], []⟩, 5⟩]⟩,
          ⟨1, [⟨"board-1", "N", 5, some 5⟩]⟩⟩ "board-1" 9).1 = .ok () ∧
      (∃ b' ∈ (delete_board ⟨⟨[], [⟨"board-1", some ⟨"board-1", "N", [], []⟩, 5⟩]⟩,
          ⟨1, [⟨"board-1", "N", 5, some 5⟩]⟩⟩ "board-1" 9).2.index.boards,
        b'.id = "board-1" ∧ b'.deletedAt = some 9) ∧
      ("board-1" ∈ activeIds (⟨[], [⟨"board-1", some ⟨"board-1", "N", [], []⟩, 5⟩]⟩ : Fs) →
        "board-1" ∈ trashIds (delete_board ⟨⟨[], [⟨"board-1", some ⟨"board-1", "N", [], []⟩,
            5⟩]⟩, ⟨1, [⟨"board-1", "N", 5, some 5⟩]⟩⟩ "board-1" 9).2.fs ∧
        "board-1" ∉ activeIds (delete_board ⟨⟨[], [⟨"board-1", some ⟨"board-1", "N", [], []⟩,
            5⟩]⟩, ⟨1, [⟨"board-1", "N", 5, some 5⟩]⟩⟩ "board-1" 9).2.fs)) :=
  ⟨by decide, by decide,
    (C2_delete_board_corrected ⟨⟨[], [⟨"board-1", some ⟨"board-1", "N", [], []⟩, 5⟩]⟩,
      ⟨1, [⟨"board-1", "N", 5, some 5⟩]⟩⟩ "board-1" 9 (by decide)).2 (by decide)⟩

/-- **C2 counterexample.** A state whose only index entry for the id is
already marked deleted (its directory is in the trash root): the claim
demands `NotFound`, but `delete_board` succeeds. -/
theorem C2_delete_board_counterexample :
    (∀ b ∈ (⟨⟨[], [⟨"board-1", some ⟨"board-1", "N", [], []⟩, 5⟩]⟩,
        ⟨1, [⟨"board-1", "N", 5, some 5⟩]⟩⟩ : St).index.boards,
      b.deletedAt.isSome = true) ∧
    (delete_board ⟨⟨[], [⟨"board-1", some ⟨"board-1", "N", [], []⟩, 5⟩]⟩,
        ⟨1, [⟨"board-1", "N", 5, some 5⟩]⟩⟩ "board-1" 9).1 = Except.ok () :=
  ⟨by decide, rfl⟩

theorem ensure_board_file_active_mem (fs : Fs) (id nm : String) (now : Int) :
    id ∈ activeIds (ensure_board_file fs id nm now) := by
  by_cases h : id ∈ activeIds fs
  · rw [ensure_board_file_of_mem h]
    exact h
  · rw [ensure_board_file_of_not_mem h]
    show id ∈ (fs.active ++ [(⟨id, some (empty_board id nm), now⟩ : FsDir)]).map
      (fun d => d.id)
    rw [List.map_append]
    exact List.mem_append_right _ (by simp)

theorem find_map_update {l : List FsDir} {id : String} {b : Board} {now : Int}
    (h : id ∈ l.map (fun d => d.id)) :
    ∃ d, (l.map (fun d => if d.id = id then (⟨d.id, some b, now⟩ : FsDir) else d)).find?
        (fun x => x.id == id) = some d ∧
      d.id = id ∧ d.doc = some b ∧ d.mtime = now := by
  induction l with
  | nil => simp at h
  | cons a t ih =>
    by_cases ha : a.id = id
    · refine ⟨(⟨a.id, some b, now⟩ : FsDir), ?_, ha, rfl, rfl⟩
      rw [List.map_cons, if_pos ha]
      exact List.find?_cons_of_pos _ (by simp [ha])
    · rw [List.map_cons] at h
      rcases List.mem_cons.mp h with he | hmem
      · exact absurd he.symm ha
      · obtain ⟨d, hfind, hprops⟩ := ih hmem
        refine ⟨d, ?_, hprops⟩
        rw [List.map_cons, if_neg ha]
        rw [List.find?_cons_of_neg _ (by simp [ha])]
        exact hfind

theorem write_board_atomic_find {fs : Fs} {id : String} {b : Board} {now : Int}
    (h : id ∈ activeIds fs) :
    ∃ d, (write_board_atomic fs id b now).active.find? (fun x => x.id == id) = some d ∧
      d.id = id ∧ d.doc = some b ∧ d.mtime = now :=
  find_map_update h

theorem write_board_atomic_activeIds (fs : Fs) (id : String) (b : Board) (now : Int) :
    activeIds (write_board_atomic fs id b now) = activeIds fs := by
  unfold write_board_atomic activeIds
  simp only [List.map_map]
  apply List.map_congr_left
  intro d _
  by_cases hd : d.id = id
  · simp [hd]
  · simp [hd]

/-- **C9.** For a valid id with no entry in the (reconciled) index and a
payload whose id matches, `save_board` succeeds — there is no `NotFound`
rejection for unknown ids: the board directory exists afterwards (created
if absent, together with its assets subdirectory, which this model keeps
implicit in the directory), the document is written, and the index gains
an entry for the id with `deletedAt` cleared and `updatedAt = now`. -/
theorem C9_save_board_unknown_id (st : St) (id : String) (b : Board) (now : Int)
    (hval : is_valid_board_id id = true) (hbid : b.id = id)
    (hno : ∀ e ∈ (read_index st).boards, e.id ≠ id) :
    (save_board st id b now).1 = .ok () ∧
    (∃ d, (save_board st id b now).2.fs.active.find? (fun x => x.id == id) = some d ∧
      d.id = id ∧ d.doc = some b ∧ d.mtime = now) ∧
    (∃ e ∈ (save_board st id b now).2.index.boards,
      e.id = id ∧ e.name = b.name ∧ e.updatedAt = now ∧ e.deletedAt = none) := by
  have hv : ¬ is_valid_board_id id = false := by simp [hval]
  have hfind := find?_eq_none_of_all_ne hno
  unfold save_board
  rw [if_neg hv, if_neg (by simp [hbid])]
  simp only [hfind]
  refine ⟨trivial, ?_, upsertMeta_exists⟩
  exact write_board_atomic_find (ensure_board_file_active_mem st.fs id b.name now)

/-- Witness for C9: saving a fresh board into the empty state. -/
theorem C9_save_board_unknown_id_witness :
    (is_valid_board_id "board-1" = true ∧ (⟨"board-1", "N", [], []⟩ : Board).id = "board-1" ∧
      (∀ e ∈ (read_index ⟨⟨[], []⟩, ⟨1, []⟩⟩).boards, e.id ≠ "board-1")) ∧
    ((save_board ⟨⟨[], []⟩, ⟨1, []⟩⟩ "board-1" ⟨"board-1", "N", [], []⟩ 3).1 = .ok () ∧
      (∃ d, (save_board ⟨⟨[], []⟩, ⟨1, []⟩⟩ "board-1" ⟨"board-1", "N", [], []⟩
          3).2.fs.active.find? (fun x => x.id == "board-1") = some d ∧
        d.id = "board-1" ∧ d.doc = some ⟨"board-1", "N", [], []⟩ ∧ d.mtime = 3) ∧
      (∃ e ∈ (save_board ⟨⟨[], []⟩, ⟨1, []⟩⟩ "board-1" ⟨"board-1", "N", [], []⟩
          3).2.index.boards,
        e.id = "board-1" ∧ e.name = "N" ∧ e.updatedAt = 3 ∧ e.deletedAt = none)) :=
  ⟨⟨by decide, by decide, by decide⟩,
    C9_save_board_unknown_id ⟨⟨[], []⟩, ⟨1, []⟩⟩ "board-1" ⟨"board-1", "N", [], []⟩ 3
      (by decide) (by decide) (by decide)⟩

/-- **C6.** For a valid id and a payload with matching id, if `save_board`
succeeds then an immediately following `load_board` (no intervening
filesystem change) returns exactly the saved document: the id-correction
branch cannot fire because the stored document's id equals the requested
id. -/
theorem C6_save_load_roundtrip (st : St) (id : String) (b : Board) (now now2 : Int)
    (hval : is_valid_board_id id = true) (hbid : b.id = id)
    (hok : (save_board st id b now).1 = .ok ()) :
    (load_board (save_board st id b now).2 id now2).1 = .ok b := by
  have hv : ¬ is_valid_board_id id = false := by simp [hval]
  have hproceed :
      (save_board st id b now).2 =
        ⟨write_board_atomic (ensure_board_file st.fs id b.name now) id b now,
          ensure_board_index_contains (read_index st) id b.name now⟩ := by
    unfold save_board
    rw [if_neg hv, if_neg (by simp [hbid])]
    simp only
    cases hf : (read_index st).boards.find? (fun m => m.id == id) with
    | none => rfl
    | some meta =>
      by_cases hdel : meta.deletedAt.isSome
      · exfalso
        unfold save_board at hok
        rw [if_neg hv, if_neg (by simp [hbid])] at hok
        simp only [hf] at hok
        rw [if_pos hdel] at hok
        simp at hok
      · dsimp only
        rw [if_neg hdel]
  rw [hproceed]
  have hmem : id ∈ activeIds (write_board_atomic (ensure_board_file st.fs id b.name now)
      id b now) := by
    rw [write_board_atomic_activeIds]
    exact ensure_board_file_active_mem st.fs id b.name now
  obtain ⟨d, hfind, hdid, hdoc, _⟩ :=
    @write_board_atomic_find _ _ b now
      (ensure_board_file_active_mem st.fs id b.name now)
  unfold load_board
  rw [if_neg hv]
  dsimp only
  rw [ensure_board_file_of_mem hmem, hfind]
  dsimp only
  rw [hdoc]
  dsimp only
  rw [if_neg (by simp [hbid])]

/-- Witness for C6: a concrete save followed by a load returns the saved
document. -/
theorem C6_save_load_roundtrip_witness :
    (is_valid_board_id "board-1" = true ∧ (⟨"board-1", "N", [], []⟩ : Board).id = "board-1" ∧
      (save_board ⟨⟨[], []⟩, ⟨1, []⟩⟩ "board-1" ⟨"board-1", "N", [], []⟩ 3).1 = .ok ()) ∧
    (load_board (save_board ⟨⟨[], []⟩, ⟨1, []⟩⟩ "board-1" ⟨"board-1", "N", [], []⟩ 3).2
      "board-1" 4).1 = .ok ⟨"board-1", "N", [], []⟩ :=
  ⟨⟨by decide, by decide, rfl⟩,
    C6_save_load_roundtrip ⟨⟨[], []⟩, ⟨1, []⟩⟩ "board-1" ⟨"board-1", "N", [], []⟩ 3 4
      (by decide) (by decide) rfl⟩

/-- **C10.** `create_board` trims leading/trailing whitespace from the
requested name, substituting the literal `"Untitled"` when the trimmed
name is empty; the returned `BoardMeta`, the appended index entry, and
the initial empty document written to the fresh board directory all
carry this sanitized name. -/
theorem C10_create_board_sanitizes (st : St) (name : String) (now : Int) :
    (create_board st name now).1.name =
      (if name.trim.isEmpty then "Untitled" else name.trim) ∧
    (create_board st name now).1 ∈ (create_board st name now).2.index.boards ∧
    (∃ d ∈ (create_board st name now).2.fs.active,
      d.id = (create_board st name now).1.id ∧
      d.doc = some (empty_board (create_board st name now).1.id
        (if name.trim.isEmpty then "Untitled" else name.trim))) := by
  obtain ⟨_, hfroot⟩ :=
    @generate_fresh_parts (rootNames st.fs) (read_index st) now
  have hnotact : generate_board_id (rootNames st.fs) (read_index st) now ∉
      activeIds st.fs := by
    intro hmem
    apply hfroot
    unfold rootNames
    exact List.mem_append_left _ hmem
  unfold create_board
  simp only
  rw [ensure_board_file_of_not_mem hnotact]
  refine ⟨trivial, List.mem_append_right _ (by simp), ?_⟩
  refine ⟨⟨generate_board_id (rootNames st.fs) (read_index st) now,
    some (empty_board (generate_board_id (rootNames st.fs) (read_index st) now)
      (if name.trim.isEmpty then "Untitled" else name.trim)), now⟩,
    List.mem_append_right _ (by simp), rfl, rfl⟩

/-! ## The link-metadata fetcher (`fetch_link_metadata`, lines 789–872)

Network and HTML parsing are modelled as oracles: `parseUrl` models
`Url::parse`, `net` models the page request (returning the final URL
after redirects together with the parsed page, or `none` for a transport
failure), `imgNet` models the image request, and `joinUrl` models
`Url::join`.  `Page` carries what the scraper selectors can extract: the
raw `content` attribute of the first matching meta tag (or `none` when
no tag matches) and the inner text of the first `<title>`. -/

/-- `str::trim`: drop whitespace from both ends. -/
def trimStr (s : String) : String :=
  ⟨(((s.data.dropWhile Char.isWhitespace).reverse.dropWhile Char.isWhitespace).reverse)⟩

/-- `clean_text` (lines 373–380). -/
def clean_text (value : String) : Option String :=
  let t := trimStr value
  if t.data.isEmpty then none else some t

/-- Rust's `Option::or_else` as used for the extraction fallbacks. -/
def oor (a b : Option String) : Option String :=
  match a with
  | some x => some x
  | none => b

structure Page where
  ogTitle : Option String
  twTitle : Option String
  docTitle : Option String
  ogSiteName : Option String
  ogImage : Option String
  twImage : Option String

/-- The image response: `status().is_success()`, the `Content-Type`
header (`""` when absent or unreadable, per `unwrap_or("")`), and the
body size in bytes (`none` models a failed body read). -/
structure ImgResp where
  ok2xx : Bool
  contentType : String
  body : Option Nat

structure NetModel where
  parseUrl : String → Option UrlM
  net : UrlM → Option (UrlM × Page)
  imgNet : UrlM → Option ImgResp
  joinUrl : UrlM → String → Option UrlM

structure LinkMetadata where
  url : String
  title : String
  image : Option String
  siteName : Option String
deriving DecidableEq

def strStartsWith (p s : String) : Bool := List.isPrefixOf p.data s.data

def asciiLowerStr (s : String) : String := ⟨s.data.map to_ascii_lowercase⟩

/-- `ext_from_content_type` (lines 395–408). -/
def ext_from_content_type (content_type : String) : Option String :=
  let ct := asciiLowerStr content_type
  if strStartsWith "image/jpeg" ct || strStartsWith "image/jpg" ct then some ".jpg"
  else if strStartsWith "image/png" ct then some ".png"
  else if strStartsWith "image/webp" ct then some ".webp"
  else if strStartsWith "image/gif" ct then some ".gif"
  else none

def replaceChar (c r : Char) (l : List Char) : List Char :=
  l.map (fun x => if x = c then r else x)

def replaceDotDot : List Char → List Char
  | '.' :: '.' :: rest => '_' :: replaceDotDot rest
  | c :: rest => c :: replaceDotDot rest
  | [] => []

/-- `.replace('\\', "_").replace('/', "_").replace("..", "_")`
(lines 428–431). -/
def sanitize_filename (s : String) : String :=
  ⟨replaceDotDot (replaceChar '/' '_' (replaceChar '\\' '_' s.data))⟩

/-- `save_asset_bytes` (lines 410–441): look the board's name up in the
reconciled index, ensure the board directory (and assets dir) exists,
and write the image bytes under `assets/link-<now><ext>`.  Individual
asset files are not tracked beyond the board directory's existence. -/
def save_asset_bytes (st : St) (board_id : String) (ext : String) (now : Int) :
    String × St :=
  let idx := read_index st
  let name :=
    match idx.boards.find? (fun b => b.id == board_id) with
    | some b => b.name
    | none => "Untitled"
  let fs1 := ensure_board_file st.fs board_id name now
  let safe_ext := if strStartsWith "." ext then ext else "." ++ ext
  let safe_name := sanitize_filename ("link-" ++ toString now ++ safe_ext)
  ("assets/" ++ safe_name, ⟨fs1, idx⟩)

/-- The image half of `fetch_link_metadata` (lines 838–864): resolve the
extracted image URL against the final page URL, re-check the safety
gate, fetch, and require 2xx, an `image/…` content type and a body of at
most 5 MiB; any failure silently drops the image. -/
def fetch_image (nm : NetModel) (st : St) (board_id : String) (final_url : UrlM)
    (image_url : Option String) (now : Int) : Option String × St :=
  match image_url with
  | none => (none, st)
  | some raw =>
    match nm.joinUrl final_url raw with
    | none => (none, st)
    | some resolved =>
      if is_safe_url resolved = false then (none, st)
      else
        match nm.imgNet resolved with
        | none => (none, st)
        | some resp =>
          if resp.ok2xx = false then (none, st)
          else if strStartsWith "image/" resp.contentType = false then (none, st)
          else
            match resp.body with
            | none => (none, st)
            | some n =>
              if n ≤ 5 * 1024 * 1024 then
                let r := save_asset_bytes st board_id
                  ((ext_from_content_type resp.contentType).getD ".img") now
                (some r.1, r.2)
              else (none, st)

/-- `fetch_link_metadata` (lines 789–872). -/
def fetch_link_metadata (nm : NetModel) (st : St) (board_id url : String) (now : Int) :
    Except String LinkMetadata × St :=
  if is_valid_board_id board_id = false then (.error "invalid board id", st)
  else
    match nm.parseUrl url with
    | none => (.error "invalid url", st)
    | some parsed =>
      if parsed.scheme ≠ "http" ∧ parsed.scheme ≠ "https" then
        (.error "unsupported url scheme", st)
      else if is_safe_url parsed = false then (.error "blocked url host", st)
      else
        match nm.net parsed with
        | none => (.error "fetch failed", st)
        | some (final_url, page) =>
          let title :=
            (oor (oor (oor (page.ogTitle.bind clean_text) (page.twTitle.bind clean_text))
              (page.docTitle.bind clean_text)) final_url.host).getD "Link"
          let site_name := oor (page.ogSiteName.bind clean_text) final_url.host
          let image_url := oor (page.ogImage.bind clean_text) (page.twImage.bind clean_text)
          let r := fetch_image nm st board_id final_url image_url now
          (.ok ⟨final_url.serialization, title, r.1, site_name⟩, r.2)

/-- **C3 (corrected).** The `is_safe_url` gate is applied to the
initially parsed URL (a rejected URL yields `blocked url host` with no
network access) and again to the resolved image URL before the image is
fetched (a rejected resolved URL leaves the image absent, the state
untouched, and the image oracle unconsulted — the result is independent
of it).  Contrary to the original claim, the gate is *not* re-applied to
the final URL reached after redirects: page processing proceeds on it
unchecked (see the counterexample). -/
theorem C3_fetch_gate_corrected (nm : NetModel) (st : St) (bid url : String) (now : Int)
    (hbid : is_valid_board_id bid = true) :
    (∀ parsed, nm.parseUrl url = some parsed →
      (parsed.scheme = "http" ∨ parsed.scheme = "https") →
      is_safe_url parsed = false →
      fetch_link_metadata nm st bid url now = (.error "blocked url host", st)) ∧
    (∀ parsed final page raw resolved,
      nm.parseUrl url = some parsed →
      nm.net parsed = some (final, page) →
      oor (page.ogImage.bind clean_text) (page.twImage.bind clean_text) = some raw →
      nm.joinUrl final raw = some resolved →
      is_safe_url resolved = false →
      (∀ r st', fetch_link_metadata nm st bid url now = (.ok r, st') →
        r.image = none ∧ st' = st) ∧
      (∀ imgNet2,
        fetch_link_metadata { nm with imgNet := imgNet2 } st bid url now =
          fetch_link_metadata nm st bid url now)) := by
  have hv : ¬ is_valid_board_id bid = false := by simp [hbid]
  constructor
  · intro parsed hparse hscheme hunsafe
    unfold fetch_link_metadata
    rw [if_neg hv, hparse]
    dsimp only
    rw [if_neg (by
      rintro ⟨h1, h2⟩
      rcases hscheme with h | h
      · exact h1 h
      · exact h2 h)]
    rw [if_pos hunsafe]
  · intro parsed final page raw resolved hparse hnet himg hjoin hunsafe
    have himage : ∀ (nmx : NetModel), nmx.joinUrl = nm.joinUrl →
        fetch_image nmx st bid final
          (oor (page.ogImage.bind clean_text) (page.twImage.bind clean_text)) now =
          (none, st) := by
      intro nmx hj
      rw [himg]
      unfold fetch_image
      dsimp only
      rw [hj, hjoin]
      dsimp only
      rw [if_pos hunsafe]
    constructor
    · intro r st' hres
      unfold fetch_link_metadata at hres
      rw [if_neg hv, hparse] at hres
      dsimp only at hres
      by_cases hsch : parsed.scheme ≠ "http" ∧ parsed.scheme ≠ "https"
      · rw [if_pos hsch] at hres
        cases hres
      · rw [if_neg hsch] at hres
        by_cases huns : is_safe_url parsed = false
        · rw [if_pos huns] at hres
          cases hres
        · rw [if_neg huns, hnet] at hres
          dsimp only at hres
          rw [himage nm rfl] at hres
          injection hres with h1 h2
          injection h1 with h1
          exact ⟨congrArg LinkMetadata.image h1.symm, h2.symm⟩
    · intro imgNet2
      unfold fetch_link_metadata
      rw [if_neg hv, hparse]
      dsimp only
      by_cases hsch : parsed.scheme ≠ "http" ∧ parsed.scheme ≠ "https"
      · rw [if_pos hsch, if_pos hsch, if_neg hv]
      · rw [if_neg hsch, if_neg hsch]
        by_cases huns : is_safe_url parsed = false
        · rw [if_pos huns, if_pos huns, if_neg hv]
        · rw [if_neg huns, if_neg huns, hnet]
          dsimp only
          rw [himage { nm with imgNet := imgNet2 } rfl, himage nm rfl]
          rw [if_neg hv]

/-- Witness for the corrected C3: a concrete network where the image URL
resolves to a loopback address — the image is dropped and the image
oracle is irrelevant. -/
theorem C3_fetch_gate_corrected_witness :
    (is_valid_board_id "board-1" = true ∧
      (NetModel.mk
        (fun _ => some ⟨"https", some "example.com", "https://example.com/"⟩)
        (fun _ => some (⟨"https", some "example.com", "https://example.com/"⟩,
          ⟨none, none, some "T", none, some "http://127.0.0.1/x.png", none⟩))
        (fun _ => none)
        (fun _ s => some ⟨"http", some "127.0.0.1", s⟩)).parseUrl "https://example.com/" =
          some ⟨"https", some "example.com", "https://example.com/"⟩ ∧
      is_safe_url ⟨"http", some "127.0.0.1", "http://127.0.0.1/x.png"⟩ = false) ∧
    (∀ r st',
      fetch_link_metadata
        (NetModel.mk
          (fun _ => some ⟨"https", some "example.com", "https://example.com/"⟩)
          (fun _ => some (⟨"https", some "example.com", "https://example.com/"⟩,
            ⟨none, none, some "T", none, some "http://127.0.0.1/x.png", none⟩))
          (fun _ => none)
          (fun _ s => some ⟨"http", some "127.0.0.1", s⟩))
        ⟨⟨[], []⟩, ⟨1, []⟩⟩ "board-1" "https://example.com/" 5 = (.ok r, st') →
      r.image = none ∧ st' = ⟨⟨[], []⟩, ⟨1, []⟩⟩) :=
  ⟨⟨by decide, rfl, by decide⟩,
    ((C3_fetch_gate_corrected
      (NetModel.mk
        (fun _ => some ⟨"https", some "example.com", "https://example.com/"⟩)
        (fun _ => some (⟨"https", some "example.com", "https://example.com/"⟩,
          ⟨none, none, some "T", none, some "http://127.0.0.1/x.png", none⟩))
        (fun _ => none)
        (fun _ s => some ⟨"http", some "127.0.0.1", s⟩))
      ⟨⟨[], []⟩, ⟨1, []⟩⟩ "board-1" "https://example.com/" 5 (by decide)).2
      ⟨"https", some "example.com", "https://example.com/"⟩
      ⟨"https", some "example.com", "https://example.com/"⟩
      ⟨none, none, some "T", none, some "http://127.0.0.1/x.png", none⟩
      "http://127.0.0.1/x.png"
      ⟨"http", some "127.0.0.1", "http://127.0.0.1/x.png"⟩
      rfl rfl (by decide) rfl (by decide)).1⟩

/-- The network used by the C3 counterexample: the initially parsed URL
is safe, but the request redirects to `http://127.0.0.1/`, whose page is
then processed without re-applying the safety gate. -/
def redirectNet : NetModel where
  parseUrl := fun s =>
    if s = "https://example.com/" then
      some ⟨"https", some "example.com", "https://example.com/"⟩
    else none
  net := fun u =>
    if u.serialization = "https://example.com/" then
      some (⟨"http", some "127.0.0.1", "http://127.0.0.1/"⟩,
        ⟨none, none, some "Secret", none, none, none⟩)
    else none
  imgNet := fun _ => none
  joinUrl := fun _ _ => none

/-- **C3 counterexample.** The initially parsed URL passes the gate, the
final URL after redirects is `http://127.0.0.1/` — which the gate
rejects — yet `fetch_link_metadata` succeeds and returns metadata
extracted from the internal page: the gate is not re-applied to the
final URL, so page processing proceeds past a URL the gate rejects. -/
theorem C3_fetch_gate_counterexample :
    is_safe_url ⟨"https", some "example.com", "https://example.com/"⟩ = true ∧
    is_safe_url ⟨"http", some "127.0.0.1", "http://127.0.0.1/"⟩ = false ∧
    (fetch_link_metadata redirectNet ⟨⟨[], []⟩, ⟨1, []⟩⟩ "board-1"
      "https://example.com/" 5).1 =
      .ok ⟨"http://127.0.0.1/", "Secret", none, some "127.0.0.1"⟩ := by
  refine ⟨by decide, by decide, ?_⟩
  cases hres : (fetch_link_metadata redirectNet ⟨⟨[], []⟩, ⟨1, []⟩⟩ "board-1"
      "https://example.com/" 5).1 with
  | error e =>
    have h : (fetch_link_metadata redirectNet ⟨⟨[], []⟩, ⟨1, []⟩⟩ "board-1"
        "https://example.com/" 5).1.toOption =
        some ⟨"http://127.0.0.1/", "Secret", none, some "127.0.0.1"⟩ := by decide
    rw [hres] at h
    simp [Except.toOption] at h
  | ok r =>
    have h : (fetch_link_metadata redirectNet ⟨⟨[], []⟩, ⟨1, []⟩⟩ "board-1"
        "https://example.com/" 5).1.toOption =
        some ⟨"http://127.0.0.1/", "Secret", none, some "127.0.0.1"⟩ := by decide
    rw [hres] at h
    simp only [Except.toOption, Option.some.injEq] at h
    rw [h]

end LANA
